import Mathlib

/-!
# Verification of the error-budgeted decimal compaction engine

Shallow embedding of `src/tools/round_compact.py`, `src/mpp02_truncate.py`
and `src/vsop87a_truncate.py` from the `ephemeris` repository.

A Python float is a binary64 value; its exact value is a rational number and
`Decimal(x).as_tuple()` yields its exact decimal digit expansion.  We model a
float by that exact expansion (`DecRep`): a sign, a list of decimal digits
whose head is nonzero (except for the zero representation `[0]`), and a
decimal exponent, with `value = ± digits * 10^exp`.  All arithmetic that the
Python code performs on such values is modelled exactly over `ℚ`.
`float(s)` (parsing a decimal string into binary64) is modelled by
`ndbl (decVal s)`: the exact decimal value of the string, rounded to the
nearest member of the binary64 grid with ties to even (`ndbl`).
-/

/-- Big-endian digit-list evaluation: the loop
`for k ...: mantissa = 10*mantissa + digits[k]` of
`round_standard_form_components`. -/
def digitsToNat (ds : List ℕ) : ℕ := ds.foldl (fun a d => 10 * a + d) 0

/-- The exact decimal expansion of a finite Python float, as produced by
`Decimal(x).as_tuple()`: sign, digit tuple, exponent. -/
structure DecRep where
  neg : Bool
  digits : List ℕ
  exp : ℤ
  deriving DecidableEq

/-- Well-formedness of a `Decimal(x).as_tuple()` expansion: a nonempty list
of decimal digits whose head is nonzero, except for zero which is `[0]`. -/
def DecRep.Valid (r : DecRep) : Prop :=
  r.digits ≠ [] ∧ (∀ d ∈ r.digits, d < 10) ∧ (r.digits.headI ≠ 0 ∨ r.digits = [0])

instance (r : DecRep) : Decidable r.Valid := by
  unfold DecRep.Valid; infer_instance

/-- The exact rational value of the expansion. -/
def DecRep.value (r : DecRep) : ℚ :=
  (if r.neg then -1 else 1) * (digitsToNat r.digits) * (10 : ℚ) ^ r.exp

/- ### Basic digit-list lemmas -/

theorem digitsToNat_aux (ds : List ℕ) (a : ℕ) :
    ds.foldl (fun a d => 10 * a + d) a = a * 10 ^ ds.length + digitsToNat ds := by
  induction ds generalizing a with
  | nil => simp [digitsToNat]
  | cons d t ih =>
    simp only [List.foldl_cons, List.length_cons, digitsToNat]
    rw [ih (10 * a + d), ih (10 * 0 + d)]
    ring

theorem digitsToNat_cons (d : ℕ) (t : List ℕ) :
    digitsToNat (d :: t) = d * 10 ^ t.length + digitsToNat t := by
  simp only [digitsToNat, List.foldl_cons]
  rw [digitsToNat_aux]
  simp [digitsToNat]

theorem digitsToNat_append (xs ys : List ℕ) :
    digitsToNat (xs ++ ys) = digitsToNat xs * 10 ^ ys.length + digitsToNat ys := by
  induction xs with
  | nil => simp [digitsToNat]
  | cons d t ih =>
    rw [List.cons_append, digitsToNat_cons, digitsToNat_cons, ih]
    rw [List.length_append]
    ring

theorem digitsToNat_replicate_zero (k : ℕ) : digitsToNat (List.replicate k 0) = 0 := by
  induction k with
  | zero => rfl
  | succ k ih => rw [List.replicate_succ, digitsToNat_cons, ih]; simp

theorem digitsToNat_lt (ds : List ℕ) (h : ∀ d ∈ ds, d < 10) :
    digitsToNat ds < 10 ^ ds.length := by
  induction ds with
  | nil => simp [digitsToNat]
  | cons d t ih =>
    rw [digitsToNat_cons, List.length_cons, pow_succ]
    have hd : d < 10 := h d (List.mem_cons_self _ _)
    have ht := ih (fun x hx => h x (List.mem_cons_of_mem _ hx))
    calc d * 10 ^ t.length + digitsToNat t
        < d * 10 ^ t.length + 10 ^ t.length := by omega
      _ = (d + 1) * 10 ^ t.length := by ring
      _ ≤ 10 * 10 ^ t.length := by
          exact Nat.mul_le_mul_right _ (by omega)
      _ = 10 ^ t.length * 10 := by ring

theorem le_digitsToNat_of_head (d : ℕ) (t : List ℕ) (hd : d ≠ 0) :
    10 ^ t.length ≤ digitsToNat (d :: t) := by
  rw [digitsToNat_cons]
  calc 10 ^ t.length = 1 * 10 ^ t.length := (one_mul _).symm
    _ ≤ d * 10 ^ t.length := Nat.mul_le_mul_right _ (by omega)
    _ ≤ d * 10 ^ t.length + digitsToNat t := Nat.le_add_right _ _

theorem digitsToNat_eq_zero_iff (ds : List ℕ) :
    digitsToNat ds = 0 ↔ ∀ d ∈ ds, d = 0 := by
  induction ds with
  | nil => simp [digitsToNat]
  | cons d t ih =>
    rw [digitsToNat_cons]
    constructor
    · intro h
      have hd : d = 0 := by
        by_contra hne
        have := le_digitsToNat_of_head d t hne
        rw [digitsToNat_cons] at this
        have : 0 < 10 ^ t.length := Nat.pos_pow_of_pos _ (by omega)
        omega
      have ht : digitsToNat t = 0 := by omega
      intro x hx
      rcases List.mem_cons.mp hx with h1 | h2
      · omega
      · exact ih.mp ht x h2
    · intro h
      have hd : d = 0 := h d (List.mem_cons_self _ _)
      have ht : digitsToNat t = 0 := ih.mpr (fun x hx => h x (List.mem_cons_of_mem _ hx))
      simp [hd, ht]

theorem digitsToNat_reverse (l : List ℕ) :
    digitsToNat l.reverse = Nat.ofDigits 10 l := by
  induction l with
  | nil => simp [digitsToNat, Nat.ofDigits]
  | cons d t ih =>
    rw [List.reverse_cons, digitsToNat_append, Nat.ofDigits_cons, ih]
    simp [digitsToNat_cons, digitsToNat]
    ring

/-- Fuel-based decimal digit extraction (kernel-computable, unlike
`Nat.digits` which uses well-founded recursion). -/
def natDigitsBEAux : ℕ → ℕ → List ℕ
  | 0, _ => []
  | fuel + 1, m => if m = 0 then [] else natDigitsBEAux fuel (m / 10) ++ [m % 10]

/-- The decimal digit string of `m`, most significant digit first
(i.e. `str(m)` as a digit list). -/
def natDigitsBE (m : ℕ) : List ℕ := natDigitsBEAux m m

theorem natDigitsBEAux_eq (fuel m : ℕ) (h : m ≤ fuel) :
    natDigitsBEAux fuel m = (Nat.digits 10 m).reverse := by
  induction fuel generalizing m with
  | zero =>
    have : m = 0 := by omega
    subst this
    simp [natDigitsBEAux]
  | succ fuel ih =>
    by_cases hm : m = 0
    · subst hm; simp [natDigitsBEAux]
    · rw [natDigitsBEAux, if_neg hm, ih (m / 10) (by omega),
        Nat.digits_def' (by omega : (1:ℕ) < 10) (by omega : 0 < m), List.reverse_cons]

theorem natDigitsBE_eq (m : ℕ) : natDigitsBE m = (Nat.digits 10 m).reverse :=
  natDigitsBEAux_eq m m le_rfl

/-- `len(str(m))` for a natural number (agrees with Python for `m ≥ 1`). -/
def numDigits (m : ℕ) : ℕ := (natDigitsBE m).length

theorem numDigits_eq (m : ℕ) : numDigits m = (Nat.digits 10 m).length := by
  rw [numDigits, natDigitsBE_eq, List.length_reverse]

theorem digitsToNat_natDigitsBE (m : ℕ) : digitsToNat (natDigitsBE m) = m := by
  rw [natDigitsBE_eq, digitsToNat_reverse, Nat.ofDigits_digits]

theorem natDigitsBE_lt (m : ℕ) : ∀ d ∈ natDigitsBE m, d < 10 := by
  intro d hd
  rw [natDigitsBE_eq] at hd
  exact Nat.digits_lt_base (by omega) (List.mem_reverse.mp hd)

theorem numDigits_le_iff (m k : ℕ) (hm : m ≠ 0) : numDigits m ≤ k ↔ m < 10 ^ k := by
  rw [numDigits_eq, Nat.digits_len 10 m (by omega) hm,
    Nat.lt_pow_iff_log_lt (by omega) hm]
  omega

theorem lt_numDigits_iff (m k : ℕ) (hm : m ≠ 0) : k < numDigits m ↔ 10 ^ k ≤ m := by
  rw [← not_le, numDigits_le_iff m k hm, not_lt]

theorem numDigits_pos (m : ℕ) (hm : m ≠ 0) : 0 < numDigits m := by
  rw [lt_numDigits_iff m 0 hm, pow_zero]
  omega

theorem pow_numDigits_pred_le (m : ℕ) (hm : m ≠ 0) : 10 ^ (numDigits m - 1) ≤ m := by
  rw [← lt_numDigits_iff m _ hm]
  have := numDigits_pos m hm
  omega

theorem lt_pow_numDigits (m : ℕ) : m < 10 ^ numDigits m := by
  rcases Nat.eq_zero_or_pos m with h | h
  · subst h; simp [numDigits]
  · exact (numDigits_le_iff m _ (by omega)).mp le_rfl

/- ### The `DecRep` value -/

theorem DecRep.value_eq_zero_iff (r : DecRep) : r.value = 0 ↔ digitsToNat r.digits = 0 := by
  unfold DecRep.value
  have h10 : ((10 : ℚ) ^ r.exp) ≠ 0 := zpow_ne_zero _ (by norm_num)
  by_cases hb : r.neg <;> simp [hb, h10]

theorem DecRep.abs_value (r : DecRep) :
    |r.value| = (digitsToNat r.digits : ℚ) * (10 : ℚ) ^ r.exp := by
  unfold DecRep.value
  rw [abs_mul, abs_mul]
  have h1 : |(if r.neg then (-1 : ℚ) else 1)| = 1 := by
    rcases r.neg with _ | _ <;> simp
  have h2 : |((digitsToNat r.digits : ℚ))| = (digitsToNat r.digits : ℚ) := by
    simp [abs_of_nonneg]
  have h3 : |(10 : ℚ) ^ r.exp| = (10 : ℚ) ^ r.exp := by
    apply abs_of_pos
    exact zpow_pos (by norm_num) _
  rw [h1, h2, h3, one_mul]

/- ### Round half to even on rationals (the tie-breaking rule of the spec) -/

/-- Round a rational to the nearest integer, ties to even.  This is the
reference rounding the spec appeals to ("round-half-to-even tie-breaking"). -/
def rhte (q : ℚ) : ℤ :=
  if q - ⌊q⌋ < 1 / 2 then ⌊q⌋
  else if 1 / 2 < q - ⌊q⌋ then ⌊q⌋ + 1
  else if ⌊q⌋ % 2 = 0 then ⌊q⌋ else ⌊q⌋ + 1

theorem rhte_intCast (z : ℤ) : rhte (z : ℚ) = z := by
  unfold rhte
  norm_num

theorem abs_rhte_sub_le (q : ℚ) : |(rhte q : ℚ) - q| ≤ 1 / 2 := by
  unfold rhte
  have h1 : (⌊q⌋ : ℚ) ≤ q := Int.floor_le q
  have h2 : q < ⌊q⌋ + 1 := Int.lt_floor_add_one q
  by_cases hc1 : q - ⌊q⌋ < 1 / 2
  · simp only [hc1, if_true]
    rw [abs_le]; constructor <;> linarith
  · by_cases hc2 : 1 / 2 < q - ⌊q⌋
    · simp only [hc1, hc2, if_false, if_true]
      rw [abs_le]; push_cast; constructor <;> linarith
    · simp only [hc1, hc2, if_false]
      have heq : q - ⌊q⌋ = 1 / 2 := le_antisymm (not_lt.mp hc2) (not_lt.mp hc1)
      by_cases hc3 : ⌊q⌋ % 2 = 0 <;> simp only [hc3, if_true, if_false] <;>
        · rw [abs_le]; push_cast; constructor <;> linarith

/-- `rhte` rounds to a nearest integer: no integer is strictly closer. -/
theorem rhte_nearest (q : ℚ) (k : ℤ) : |(rhte q : ℚ) - q| ≤ |(k : ℚ) - q| := by
  have h1 : (⌊q⌋ : ℚ) ≤ q := Int.floor_le q
  have h2 : q < ⌊q⌋ + 1 := Int.lt_floor_add_one q
  have hk : (k : ℚ) ≤ (⌊q⌋ : ℚ) ∨ (⌊q⌋ : ℚ) + 1 ≤ (k : ℚ) := by
    rcases Int.lt_or_le k (⌊q⌋ + 1) with h | h
    · left; exact_mod_cast Int.lt_add_one_iff.mp h
    · right; exact_mod_cast h
  have hklow : (k : ℚ) ≤ (⌊q⌋ : ℚ) → q - ⌊q⌋ ≤ |(k : ℚ) - q| := by
    intro h
    rw [abs_sub_comm, abs_of_nonneg (by linarith)]
    linarith
  have hkhigh : (⌊q⌋ : ℚ) + 1 ≤ (k : ℚ) → (⌊q⌋ : ℚ) + 1 - q ≤ |(k : ℚ) - q| := by
    intro h
    rw [abs_of_nonneg (by linarith)]
    linarith
  have hfl : |(⌊q⌋ : ℚ) - q| = q - ⌊q⌋ := by
    rw [abs_sub_comm, abs_of_nonneg (by linarith)]
  have hfl1 : |(⌊q⌋ : ℚ) + 1 - q| = (⌊q⌋ : ℚ) + 1 - q := abs_of_nonneg (by linarith)
  unfold rhte
  by_cases hc1 : q - ⌊q⌋ < 1 / 2
  · simp only [hc1, if_true]
    rw [hfl]
    rcases hk with h | h
    · exact hklow h
    · calc q - ⌊q⌋ ≤ (⌊q⌋ : ℚ) + 1 - q := by linarith
        _ ≤ |(k : ℚ) - q| := hkhigh h
  · by_cases hc2 : 1 / 2 < q - ⌊q⌋
    · simp only [hc1, hc2, if_false, if_true]
      push_cast
      rw [hfl1]
      rcases hk with h | h
      · calc (⌊q⌋ : ℚ) + 1 - q ≤ q - ⌊q⌋ := by linarith
          _ ≤ |(k : ℚ) - q| := hklow h
      · exact hkhigh h
    · have heq : q - ⌊q⌋ = 1 / 2 := le_antisymm (not_lt.mp hc2) (not_lt.mp hc1)
      have hbnd : 1 / 2 ≤ |(k : ℚ) - q| := by
        rcases hk with h | h
        · calc (1 : ℚ) / 2 = q - ⌊q⌋ := heq.symm
            _ ≤ _ := hklow h
        · calc (1 : ℚ) / 2 = (⌊q⌋ : ℚ) + 1 - q := by linarith
            _ ≤ _ := hkhigh h
      simp only [hc1, hc2, if_false]
      by_cases hc3 : ⌊q⌋ % 2 = 0 <;> simp only [hc3, if_true, if_false] <;> push_cast
      · rw [hfl, heq]; exact hbnd
      · rw [hfl1]
        calc (⌊q⌋ : ℚ) + 1 - q = 1 - (q - ⌊q⌋) := by ring
          _ = 1 / 2 := by rw [heq]; norm_num
          _ ≤ |(k : ℚ) - q| := hbnd

/- ### `round_standard_form_components` (src/tools/round_compact.py, lines 70-116) -/

/-- Embedding of `round_standard_form_components(x, sig_figs)`.

The Python code starts from `Decimal(x).as_tuple()` (here: the `DecRep`),
pads the digit tuple on the right with zeros up to `sig_figs + 1` digits
(adjusting the exponent), sets `exponent = exponent + len(digits) - 1`,
takes the first `sig_figs` digits as the mantissa, applies round-to-nearest
with ties-to-even by inspecting digit `sig_figs` and the digits after it,
and on mantissa overflow (`len(str(mantissa)) > sig_figs`) keeps the first
`sig_figs` characters of `str(mantissa)` and increments the exponent.
Only called with `sig_figs ≥ 1` (`round_compact` handles 0 beforehand). -/
def roundStandardFormComponents (r : DecRep) (sigFigs : ℕ) : ℤ × ℕ × ℤ :=
  if digitsToNat r.digits = 0 then (0, 0, 0)
  else
    let pad : ℕ := sigFigs + 1 - r.digits.length
    let digits := r.digits ++ List.replicate pad 0
    let exponent : ℤ := (r.exp - pad) + digits.length - 1
    let mantissa0 := digitsToNat (digits.take sigFigs)
    let mantissa :=
      if 5 < digits.getD sigFigs 0 then mantissa0 + 1
      else if digits.getD sigFigs 0 = 5 then
        if ¬ (digits.drop (sigFigs + 1)).all (fun d => d = 0) then mantissa0 + 1
        else if digits.getD (sigFigs - 1) 0 % 2 = 1 then mantissa0 + 1
        else mantissa0
      else mantissa0
    if sigFigs < numDigits mantissa then
      ((if r.neg then -1 else 1), digitsToNat ((natDigitsBE mantissa).take sigFigs),
        exponent + 1)
    else
      ((if r.neg then -1 else 1), mantissa, exponent)

/-- Modelled from the spec: "an independently computed correctly-rounded
decimal rounding of `x` to `n` significant digits", round half to even.
With `e = Int.log 10 |v|` (so `10^e ≤ |v| < 10^(e+1)`), the rounding grid
for `n` significant digits is `10^(e-n+1)` and the mantissa is the
half-to-even rounding of `|v|` scaled onto that grid. -/
def specSigRound (v : ℚ) (n : ℕ) : ℚ :=
  if v = 0 then 0
  else
    (if v < 0 then -1 else 1) *
      rhte (|v| * (10 : ℚ) ^ ((n : ℤ) - 1 - Int.log 10 |v|)) *
      (10 : ℚ) ^ (Int.log 10 |v| - (n : ℤ) + 1)

example : roundStandardFormComponents ⟨false, [2, 5], -1⟩ 1 = (1, 2, 0) := by decide
example : roundStandardFormComponents ⟨false, [3, 5], -1⟩ 1 = (1, 4, 0) := by decide
example : roundStandardFormComponents ⟨true, [9, 9, 6], -2⟩ 2 = (-1, 10, 1) := by decide
example : roundStandardFormComponents ⟨false, [1, 2, 3, 4], 0⟩ 2 = (1, 12, 3) := by decide
example : roundStandardFormComponents ⟨false, [5], 0⟩ 3 = (1, 500, 0) := by decide

/- ### Helper lemmas for the kernel correctness proof -/

theorem digitsToNat_take_drop (D : List ℕ) (n : ℕ) :
    digitsToNat D = digitsToNat (D.take n) * 10 ^ (D.length - n) + digitsToNat (D.drop n) := by
  conv_lhs => rw [← List.take_append_drop n D]
  rw [digitsToNat_append, List.length_drop]

theorem digitsToNat_snoc (xs : List ℕ) (x : ℕ) :
    digitsToNat (xs ++ [x]) = digitsToNat xs * 10 + x := by
  rw [digitsToNat_append]
  simp [digitsToNat_cons, digitsToNat]

theorem take_eq_take_snoc (D : List ℕ) (n : ℕ) (h0 : 1 ≤ n) (h : n ≤ D.length) :
    D.take n = D.take (n - 1) ++ [D.getD (n - 1) 0] := by
  have h1 : n - 1 < D.length := by omega
  have h2 : n - 1 + 1 = n := by omega
  conv_lhs => rw [← h2, List.take_succ]
  rw [List.getElem?_eq_getElem h1, List.getD_eq_getElem D 0 h1]
  rfl

theorem drop_eq_getD_cons (D : List ℕ) (n : ℕ) (h : n < D.length) :
    D.drop n = D.getD n 0 :: D.drop (n + 1) := by
  rw [List.drop_eq_getElem_cons h, List.getD_eq_getElem D 0 h]

/-- The rounding decision of `round_standard_form_components` computes exactly
the round-half-to-even rounding of `digits / 10^(L-n)`. -/
theorem mantissa_eq_rhte (D : List ℕ) (n : ℕ) (hd : ∀ d ∈ D, d < 10)
    (hn : 1 ≤ n) (hL : n + 1 ≤ D.length) :
    rhte ((digitsToNat D : ℚ) / 10 ^ (D.length - n)) =
      (if 5 < D.getD n 0 then (digitsToNat (D.take n) : ℤ) + 1
       else if D.getD n 0 = 5 then
         if ¬ (D.drop (n + 1)).all (fun d => d = 0) then (digitsToNat (D.take n) : ℤ) + 1
         else if D.getD (n - 1) 0 % 2 = 1 then (digitsToNat (D.take n) : ℤ) + 1
         else (digitsToNat (D.take n) : ℤ)
       else (digitsToNat (D.take n) : ℤ)) := by
  set L := D.length with hLdef
  set K := L - n with hKdef
  have hK1 : 1 ≤ K := by omega
  set m0 := digitsToNat (D.take n) with hm0
  set R := digitsToNat (D.drop n) with hR
  set dn := D.getD n 0 with hdn
  set Rt := digitsToNat (D.drop (n + 1)) with hRt
  have hsplit : digitsToNat D = m0 * 10 ^ K + R := digitsToNat_take_drop D n
  have hdrop : D.drop n = dn :: D.drop (n + 1) := drop_eq_getD_cons D n (by omega)
  have hRsplit : R = dn * 10 ^ (K - 1) + Rt := by
    rw [hR, hdrop, digitsToNat_cons, List.length_drop]
    congr 2
  have hRtlt : Rt < 10 ^ (K - 1) := by
    have := digitsToNat_lt (D.drop (n + 1)) (fun d hdm => hd d (List.mem_of_mem_drop hdm))
    rwa [List.length_drop, (by omega : L - (n + 1) = K - 1)] at this
  have hdnlt : dn < 10 := by
    rw [hdn, List.getD_eq_getElem D 0 (by omega)]
    exact hd _ (List.getElem_mem _)
  have hRlt : R < 10 ^ K := by
    have := digitsToNat_lt (D.drop n) (fun d hdm => hd d (List.mem_of_mem_drop hdm))
    rwa [List.length_drop, ← hKdef] at this
  -- last digit of the mantissa, for the parity tie-break
  have hm0split : m0 = digitsToNat (D.take (n - 1)) * 10 + D.getD (n - 1) 0 := by
    rw [hm0, take_eq_take_snoc D n hn (by omega), digitsToNat_snoc]
  clear_value m0 R dn Rt
  have hpowK : (0 : ℚ) < 10 ^ K := by positivity
  set q : ℚ := (digitsToNat D : ℚ) / 10 ^ K with hq
  have hqval : q = m0 + (R : ℚ) / 10 ^ K := by
    rw [hq, hsplit]
    push_cast
    field_simp
  have hfrac0 : (0 : ℚ) ≤ (R : ℚ) / 10 ^ K := by positivity
  have hfrac1 : (R : ℚ) / 10 ^ K < 1 := by
    rw [div_lt_one hpowK]
    exact_mod_cast hRlt
  have hfloor : ⌊q⌋ = (m0 : ℤ) := by
    refine Int.floor_eq_iff.mpr ⟨?_, ?_⟩
    · push_cast
      rw [hqval]
      linarith
    · push_cast
      rw [hqval]
      linarith
  have hqsub : q - (⌊q⌋ : ℚ) = (R : ℚ) / 10 ^ K := by
    rw [hfloor, hqval]; push_cast; ring
  -- comparing the fractional part with 1/2 is comparing R with 5 * 10^(K-1)
  have hKsucc : 10 ^ K = 10 * 10 ^ (K - 1) := by
    rw [← pow_succ']
    congr 1
    omega
  have hhalf_lt : ((R : ℚ) / 10 ^ K < 1 / 2) ↔ 2 * R < 10 ^ K := by
    rw [div_lt_iff hpowK]
    constructor
    · intro h
      have h' : (2 * R : ℚ) < 10 ^ K := by linarith
      exact_mod_cast h'
    · intro h
      have h' : (2 * R : ℚ) < 10 ^ K := by exact_mod_cast h
      linarith
  have hlt_half : (1 / 2 < (R : ℚ) / 10 ^ K) ↔ 10 ^ K < 2 * R := by
    rw [lt_div_iff hpowK]
    constructor
    · intro h
      have h' : ((10 : ℚ) ^ K) < 2 * R := by linarith
      exact_mod_cast h'
    · intro h
      have h' : ((10 : ℚ) ^ K) < 2 * R := by exact_mod_cast h
      linarith
  unfold rhte
  rw [hqsub, hfloor]
  by_cases hgt : 5 < dn
  · -- digit > 5 : round up
    have hmul : 6 * 10 ^ (K - 1) ≤ dn * 10 ^ (K - 1) :=
      Nat.mul_le_mul_right _ (by omega)
    have hcond : 10 ^ K < 2 * R := by
      have h10 : (10 : ℕ) ^ K = 10 * 10 ^ (K - 1) := hKsucc
      omega
    rw [if_neg (by rw [hhalf_lt]; omega), if_pos (by rw [hlt_half]; exact hcond)]
    rw [if_pos hgt]
  · by_cases heq5 : dn = 5
    · have hR5 : R = 5 * 10 ^ (K - 1) + Rt := by rw [hRsplit, heq5]
      by_cases htail : Rt = 0
      · -- exact tie
        have hcond : 2 * R = 10 ^ K := by omega
        have h0 : digitsToNat (D.drop (n + 1)) = 0 := by rw [← hRt]; exact htail
        have halleq : (D.drop (n + 1)).all (fun d => d = 0) = true := by
          rw [List.all_eq_true]
          intro d hdm
          simpa using (digitsToNat_eq_zero_iff _).mp h0 d hdm
        have hcnot : ¬ ¬ ((D.drop (n + 1)).all (fun d => d = 0) = true) := by
          simp [halleq]
        rw [if_neg (by rw [hhalf_lt]; omega), if_neg (by rw [hlt_half]; omega)]
        rw [if_neg hgt, if_pos heq5, if_neg hcnot]
        by_cases hpar : D.getD (n - 1) 0 % 2 = 1
        · have hodd : ¬ ((m0 : ℤ) % 2 = 0) := by omega
          rw [if_pos hpar, if_neg hodd]
        · have heven : (m0 : ℤ) % 2 = 0 := by omega
          rw [if_neg hpar, if_pos heven]
      · -- not an exact tie: digits after position n are not all zero
        have halleq : ¬ ((D.drop (n + 1)).all (fun d => d = 0) = true) := by
          rw [List.all_eq_true]
          intro hall
          apply htail
          rw [hRt, digitsToNat_eq_zero_iff]
          intro d hdm
          simpa using hall d hdm
        have hcond : 10 ^ K < 2 * R := by omega
        rw [if_neg (by rw [hhalf_lt]; omega), if_pos (by rw [hlt_half]; exact hcond)]
        rw [if_neg hgt, if_pos heq5, if_pos halleq]
    · -- digit < 5 : round down
      have hlt5 : dn < 5 := by omega
      have hmul : dn * 10 ^ (K - 1) ≤ 4 * 10 ^ (K - 1) :=
        Nat.mul_le_mul_right _ (by omega)
      have hP : 0 < 10 ^ (K - 1) := Nat.pos_pow_of_pos _ (by omega)
      have hcond : 2 * R < 10 ^ K := by
        have h10 : (10 : ℕ) ^ K = 10 * 10 ^ (K - 1) := hKsucc
        omega
      rw [if_pos (by rw [hhalf_lt]; exact hcond)]
      rw [if_neg (by omega), if_neg heq5]

theorem digitsToNat_take_natDigitsBE (m k : ℕ) :
    digitsToNat ((natDigitsBE m).take k) = m / 10 ^ (numDigits m - k) := by
  have hsplit := digitsToNat_take_drop (natDigitsBE m) k
  rw [digitsToNat_natDigitsBE] at hsplit
  have hrest : digitsToNat ((natDigitsBE m).drop k) < 10 ^ ((natDigitsBE m).length - k) := by
    have := digitsToNat_lt ((natDigitsBE m).drop k)
      (fun d hdm => natDigitsBE_lt m d (List.mem_of_mem_drop hdm))
    rwa [List.length_drop] at this
  have hP : 0 < 10 ^ ((natDigitsBE m).length - k) := Nat.pos_pow_of_pos _ (by omega)
  set a := digitsToNat ((natDigitsBE m).take k) with ha
  set rr := digitsToNat ((natDigitsBE m).drop k) with hr
  set P := 10 ^ ((natDigitsBE m).length - k) with hPdef
  show a = m / P
  clear_value a rr P
  calc a = a + rr / P := by rw [Nat.div_eq_of_lt hrest]; omega
    _ = (P * a + rr) / P := (Nat.mul_add_div hP a rr).symm
    _ = (a * P + rr) / P := by rw [Nat.mul_comm]
    _ = m / P := by rw [← hsplit]

theorem numDigits_pow10 (n : ℕ) : numDigits (10 ^ n) = n + 1 := by
  have h1 : numDigits (10 ^ n) ≤ n + 1 :=
    (numDigits_le_iff _ _ (by positivity)).mpr (by exact Nat.pow_lt_pow_right (by omega) (by omega))
  have h2 : n < numDigits (10 ^ n) := (lt_numDigits_iff _ _ (by positivity)).mpr le_rfl
  omega

theorem int_log_eq_of_bounds (v : ℚ) (e : ℤ) (hv : 0 < v)
    (h1 : (10 : ℚ) ^ e ≤ v) (h2 : v < (10 : ℚ) ^ (e + 1)) : Int.log 10 v = e := by
  have hle : e ≤ Int.log 10 v := by
    rw [← Int.zpow_le_iff_le_log (by norm_num) hv]
    exact_mod_cast h1
  have hlt : Int.log 10 v < e + 1 := by
    rw [← Int.lt_zpow_iff_log_lt (by norm_num) hv]
    exact_mod_cast h2
  omega

theorem DecRep.value_neg_iff (r : DecRep) (hnz : digitsToNat r.digits ≠ 0) :
    r.value < 0 ↔ r.neg = true := by
  have hM : (0 : ℚ) < (digitsToNat r.digits : ℚ) := by
    exact_mod_cast Nat.pos_of_ne_zero hnz
  have hP : (0 : ℚ) < (10 : ℚ) ^ r.exp := zpow_pos (by norm_num) _
  unfold DecRep.value
  by_cases hb : r.neg <;> simp [hb] <;> nlinarith

/-- Correctness of the rounding kernel: for a valid nonzero expansion the
components returned by `round_standard_form_components` carry the sign of
`x`, a mantissa with exactly `sig_figs` digits, and reconstruct exactly the
correctly-rounded (half-to-even) decimal rounding of `x`. -/
theorem roundStandardFormComponents_correct (r : DecRep) (hv : r.Valid) (n : ℕ)
    (hn : 1 ≤ n) (hnz : digitsToNat r.digits ≠ 0) (s : ℤ) (m : ℕ) (E : ℤ)
    (hout : roundStandardFormComponents r n = (s, m, E)) :
    s = (if r.neg then -1 else 1) ∧
    10 ^ (n - 1) ≤ m ∧ m < 10 ^ n ∧
    (s : ℚ) * m * (10 : ℚ) ^ (E - n + 1) = specSigRound r.value n := by
  obtain ⟨hne, hd10, hhead⟩ := hv
  have hh : r.digits.headI ≠ 0 := by
    rcases hhead with h | h
    · exact h
    · exact absurd (by rw [h]; rfl) hnz
  unfold roundStandardFormComponents at hout
  rw [if_neg hnz] at hout
  dsimp only at hout
  set len0 := r.digits.length with hlen0
  set pad := n + 1 - len0 with hpad
  set D := r.digits ++ List.replicate pad 0 with hD
  set L := D.length with hLdef
  have hLval : L = len0 + pad := by rw [hLdef, hD, List.length_append, List.length_replicate]
  have hlen0pos : 1 ≤ len0 := by
    rw [hlen0]
    exact List.length_pos.mpr hne
  have hLn : n + 1 ≤ L := by omega
  have hDd10 : ∀ d ∈ D, d < 10 := by
    intro d hdm
    rw [hD] at hdm
    rcases List.mem_append.mp hdm with h | h
    · exact hd10 d h
    · rw [List.eq_of_mem_replicate h]; omega
  obtain ⟨h0, t0, ht0⟩ : ∃ h0 t0, r.digits = h0 :: t0 := by
    cases hcd : r.digits with
    | nil => exact absurd hcd hne
    | cons a l => exact ⟨a, l, rfl⟩
  have hh0 : h0 ≠ 0 := by rw [ht0] at hh; exact hh
  have hDcons : D = h0 :: (t0 ++ List.replicate pad 0) := by rw [hD, ht0]; rfl
  set M0 := digitsToNat r.digits with hM0
  set M := digitsToNat D with hM
  have hMM0 : M = M0 * 10 ^ pad := by
    rw [hM, hD, digitsToNat_append, digitsToNat_replicate_zero, List.length_replicate,
      Nat.add_zero]
  have hlent0 : t0.length = len0 - 1 := by
    rw [hlen0, ht0]
    simp
  have hM0lb : 10 ^ (len0 - 1) ≤ M0 := by
    rw [hM0, ht0, ← hlent0]
    exact le_digitsToNat_of_head h0 t0 hh0
  have hM0ub : M0 < 10 ^ len0 := by
    rw [hM0, hlen0]
    exact digitsToNat_lt _ hd10
  set e : ℤ := r.exp + len0 - 1 with he
  have habs : |r.value| = (M0 : ℚ) * (10 : ℚ) ^ r.exp := r.abs_value
  have hvne : r.value ≠ 0 := fun h => hnz ((DecRep.value_eq_zero_iff r).mp h)
  have hvpos : 0 < |r.value| := abs_pos.mpr hvne
  have hcastlow : ((10 : ℚ)) ^ ((len0 : ℤ) - 1) ≤ (M0 : ℚ) := by
    have h1 : ((10 : ℕ) ^ (len0 - 1) : ℚ) ≤ (M0 : ℚ) := by exact_mod_cast hM0lb
    have h2 : ((10 : ℕ) ^ (len0 - 1) : ℚ) = (10 : ℚ) ^ ((len0 : ℤ) - 1) := by
      push_cast
      rw [← zpow_natCast]
      congr 1
      omega
    rwa [h2] at h1
  have hcasthigh : (M0 : ℚ) < (10 : ℚ) ^ (len0 : ℤ) := by
    have h1 : (M0 : ℚ) < ((10 : ℕ) ^ len0 : ℚ) := by exact_mod_cast hM0ub
    have h2 : ((10 : ℕ) ^ len0 : ℚ) = (10 : ℚ) ^ (len0 : ℤ) := by
      push_cast
      rw [← zpow_natCast]
    rwa [h2] at h1
  have hzp : (0 : ℚ) < (10 : ℚ) ^ r.exp := zpow_pos (by norm_num) _
  have hlow : (10 : ℚ) ^ e ≤ |r.value| := by
    rw [habs, he, (by ring : r.exp + (len0 : ℤ) - 1 = ((len0 : ℤ) - 1) + r.exp),
      zpow_add₀ (by norm_num : (10 : ℚ) ≠ 0)]
    exact mul_le_mul_of_nonneg_right hcastlow (le_of_lt hzp)
  have hhigh : |r.value| < (10 : ℚ) ^ (e + 1) := by
    rw [habs, he, (by ring : r.exp + (len0 : ℤ) - 1 + 1 = (len0 : ℤ) + r.exp),
      zpow_add₀ (by norm_num : (10 : ℚ) ≠ 0)]
    exact mul_lt_mul_of_pos_right hcasthigh hzp
  have hlog : Int.log 10 |r.value| = e := int_log_eq_of_bounds _ e hvpos hlow hhigh
  -- the argument fed to the reference rounding
  have hqM : |r.value| * (10 : ℚ) ^ ((n : ℤ) - 1 - e) = (M : ℚ) / 10 ^ (L - n) := by
    rw [habs, hMM0]
    push_cast
    rw [div_eq_mul_inv, ← zpow_natCast (10 : ℚ) (L - n), ← zpow_neg,
      ← zpow_natCast (10 : ℚ) pad, mul_assoc, mul_assoc, ← zpow_add₀
        (by norm_num : (10 : ℚ) ≠ 0), ← zpow_add₀ (by norm_num : (10 : ℚ) ≠ 0)]
    congr 2
    have : ((L - n : ℕ) : ℤ) = (L : ℤ) - n := by omega
    rw [this]
    omega
  have hrh := mantissa_eq_rhte D n hDd10 hn (by omega)
  rw [← hLdef, ← hM] at hrh
  -- mantissa bounds
  set m0 := digitsToNat (D.take n) with hm0def
  have htaken : (D.take n).length = n := by
    rw [List.length_take]
    omega
  have hm0ub : m0 < 10 ^ n := by
    have := digitsToNat_lt (D.take n) (fun d hdm => hDd10 d (List.mem_of_mem_take hdm))
    rwa [htaken] at this
  have hm0lb : 10 ^ (n - 1) ≤ m0 := by
    have htake : D.take n = h0 :: ((t0 ++ List.replicate pad 0).take (n - 1)) := by
      rw [hDcons, ← List.take_succ_cons, (by omega : n - 1 + 1 = n)]
    have hlen' : ((t0 ++ List.replicate pad 0).take (n - 1)).length = n - 1 := by
      rw [List.length_take, List.length_append, List.length_replicate]
      omega
    rw [hm0def, htake]
    have := le_digitsToNat_of_head h0 ((t0 ++ List.replicate pad 0).take (n - 1)) hh0
    rwa [hlen'] at this
  set mant := (if 5 < D.getD n 0 then m0 + 1
      else if D.getD n 0 = 5 then
        if ¬ (D.drop (n + 1)).all (fun d => d = 0) then m0 + 1
        else if D.getD (n - 1) 0 % 2 = 1 then m0 + 1
        else m0
      else m0) with hmant
  have hmant_cast : ((mant : ℕ) : ℤ) =
      (if 5 < D.getD n 0 then (m0 : ℤ) + 1
       else if D.getD n 0 = 5 then
         if ¬ (D.drop (n + 1)).all (fun d => d = 0) then (m0 : ℤ) + 1
         else if D.getD (n - 1) 0 % 2 = 1 then (m0 : ℤ) + 1
         else (m0 : ℤ)
       else (m0 : ℤ)) := by
    rw [hmant]
    split_ifs <;> push_cast <;> ring
  have hrhq : rhte ((M : ℚ) / 10 ^ (L - n)) = (mant : ℤ) := by
    rw [hrh, hmant_cast]
  have hmant_le : mant ≤ 10 ^ n := by
    rw [hmant]
    split_ifs <;> omega
  have hmant_pos : mant ≠ 0 := by
    have h1 : 0 < 10 ^ (n - 1) := Nat.pos_pow_of_pos _ (by omega)
    rw [hmant]
    split_ifs <;> omega
  -- the sign factors agree
  have hsgn : (if r.value < 0 then (-1 : ℚ) else 1) =
      (if r.neg then (-1 : ℚ) else 1) := by
    by_cases hb : r.neg
    · rw [if_pos hb, if_pos ((r.value_neg_iff hnz).mpr hb)]
    · rw [if_neg hb]
      rw [if_neg (fun hc => hb ((r.value_neg_iff hnz).mp hc))]
  -- unfold the spec value
  have hspec : specSigRound r.value n =
      (if r.neg then (-1 : ℚ) else 1) * (mant : ℚ) * (10 : ℚ) ^ (e - n + 1) := by
    unfold specSigRound
    rw [if_neg hvne, hlog, hqM, hrhq, hsgn]
    push_cast
    ring
  -- exponent bookkeeping
  have hexp : r.exp - (pad : ℤ) + (L : ℤ) - 1 = e := by
    rw [he]
    omega
  rcases Nat.lt_or_ge n (numDigits mant) with hcase | hcase
  · -- mantissa overflowed to 10^n : renormalize
    have h10n : 10 ^ n ≤ mant := (lt_numDigits_iff mant n hmant_pos).mp hcase
    have hmant10 : mant = 10 ^ n := le_antisymm hmant_le h10n
    rw [if_pos hcase] at hout
    injection hout with hs hrest
    injection hrest with hm hE
    have hmval : m = 10 ^ (n - 1) := by
      have hps : (10 : ℕ) ^ n = 10 ^ (n - 1) * 10 := by
        conv_lhs => rw [(by omega : n = (n - 1) + 1)]
        rw [pow_succ]
      rw [← hm, digitsToNat_take_natDigitsBE, hmant10, numDigits_pow10,
        (by omega : n + 1 - n = 1), pow_one, hps]
      exact Nat.mul_div_cancel _ (by omega)
    refine ⟨hs.symm, by rw [hmval], by rw [hmval]; exact Nat.pow_lt_pow_right (by omega) (by omega), ?_⟩
    rw [hspec, ← hs, hmval, ← hE, hexp, hmant10]
    push_cast
    rw [← zpow_natCast (10 : ℚ) (n - 1), ← zpow_natCast (10 : ℚ) n,
      mul_assoc, mul_assoc, ← zpow_add₀ (by norm_num : (10 : ℚ) ≠ 0),
      ← zpow_add₀ (by norm_num : (10 : ℚ) ≠ 0)]
    congr 2
    omega
  · -- no overflow
    rw [if_neg (by omega)] at hout
    injection hout with hs hrest
    injection hrest with hm hE
    have hmlb : 10 ^ (n - 1) ≤ m := by
      rw [← hm, hmant]
      split_ifs <;> omega
    have hmub : m < 10 ^ n := by
      rw [← hm]
      rcases Nat.lt_or_ge mant (10 ^ n) with h | h
      · exact h
      · have : mant = 10 ^ n := le_antisymm hmant_le h
        exfalso
        rw [this, numDigits_pow10] at hcase
        omega
    refine ⟨hs.symm, hmlb, hmub, ?_⟩
    rw [hspec, ← hs, ← hm, ← hE, hexp]
    by_cases hb : r.neg <;> simp [hb]

/- ### Character-level encoding: `_compose_number` and `round_compact` strings -/

/-- The character of a decimal digit. -/
def digitChar (d : ℕ) : Char := Char.ofNat (48 + d)

/-- A digit list rendered as characters. -/
def digitChars (ds : List ℕ) : List Char := ds.map digitChar

/-- `str(z)` for a Python integer. -/
def intChars (z : ℤ) : List Char :=
  if z = 0 then ['0']
  else (if z < 0 then ['-'] else []) ++ digitChars (natDigitsBE z.natAbs)

/-- Embedding of `_compose_number(sign, mantissa_digits, decimal_place, exponent)`
(src/tools/round_compact.py, lines 118-126).  The mantissa is carried as a
digit list (Python carries the digit string). -/
def composeNumber (sign : ℤ) (mantissaDigits : List ℕ) (decimalPlace : ℕ)
    (exponent : ℤ) : List Char :=
  (if sign = -1 then ['-'] else []) ++
  (if decimalPlace < mantissaDigits.length then
      digitChars (mantissaDigits.take decimalPlace) ++
        '.' :: digitChars (mantissaDigits.drop decimalPlace)
    else digitChars (mantissaDigits.take decimalPlace)) ++
  (if exponent ≠ 0 then 'e' :: intChars exponent else [])

/-- `FormattedFloat.ZERO`, i.e. the string `'0'`. -/
def ffZeroChars : List Char := ['0']

/-- The two candidate strings built by `round_compact` for a nonzero input:
the normalized scientific form, and the second attempt after the three
exponent-removal rewrites (src/tools/round_compact.py, lines 144-170). -/
def roundCompactCandidates (r : DecRep) (sigFigs : ℕ) : List Char × List Char :=
  let c := roundStandardFormComponents r sigFigs
  let sign := c.1
  let mantissaDs := natDigitsBE c.2.1
  let exponent := c.2.2
  let exponentLength := (intChars exponent).length
  let decimalPlace : ℕ := 1
  let xr1 := composeNumber sign mantissaDs decimalPlace exponent
  -- if exponent > 0 and exponent < sig_figs: remove exponent, move the point
  let p2 := if 0 < exponent ∧ exponent < (sigFigs : ℤ) then
      (mantissaDs, decimalPlace + exponent.toNat, (0 : ℤ))
    else (mantissaDs, decimalPlace, exponent)
  -- if exponent >= sig_figs and exponent <= sig_figs+exponent_length+6:
  -- remove exponent and pad with zeros from the right
  let p3 := if (sigFigs : ℤ) ≤ p2.2.2 ∧ p2.2.2 ≤ (sigFigs : ℤ) + exponentLength + 6 then
      (p2.1 ++ List.replicate (p2.2.2.toNat - sigFigs + 1) 0, p2.2.1 + p2.2.2.toNat, (0 : ℤ))
    else p2
  -- if exponent >= -6-exponent_length and exponent < 0: add leading zeroes
  let p4 := if -6 - (exponentLength : ℤ) ≤ p3.2.2 ∧ p3.2.2 < 0 then
      (List.replicate (-p3.2.2).toNat 0 ++ p3.1, p3.2.1, (0 : ℤ))
    else p3
  let xr2 := composeNumber sign p4.1 p4.2.1 p4.2.2
  (xr1, xr2)

/-- Embedding of `round_compact(x, sig_figs)` for a nonnegative digit count
(the `ValueError` branch lives in `roundCompact` below).  Mirrors
src/tools/round_compact.py, lines 128-178. -/
def roundCompactN (r : DecRep) (sigFigs0 : ℕ) : List Char :=
  if sigFigs0 = 0 then ffZeroChars
  else
    let sigFigs := min sigFigs0 17
    if digitsToNat r.digits = 0 then
      if sigFigs = 1 then ['0'] else '0' :: '.' :: List.replicate (sigFigs - 1) '0'
    else
      let cand := roundCompactCandidates r sigFigs
      -- pick the more compact form, preferring to avoid the exponent part
      if cand.1.length < cand.2.length then cand.1 else cand.2

/-- Embedding of `round_compact` including its fail-fast contract:
`ValueError` exactly when `sig_figs < 0`. -/
def roundCompact (r : DecRep) (sigFigs : ℤ) : Except String (List Char) :=
  if sigFigs < 0 then Except.error "Invalid number of significant figures."
  else Except.ok (roundCompactN r sigFigs.toNat)

/- ### A decoder for the produced decimal strings -/

/-- The digit denoted by a character, if any. -/
def digitOfChar (c : Char) : Option ℕ :=
  if '0' ≤ c ∧ c ≤ '9' then some (c.toNat - 48) else none

/-- Longest digit prefix of a character list, with the rest. -/
def takeDigits : List Char → List ℕ × List Char
  | [] => ([], [])
  | c :: cs =>
    match digitOfChar c with
    | some d => ((d :: (takeDigits cs).1), (takeDigits cs).2)
    | none => ([], c :: cs)

/-- The discrete content of a decimal literal `-ddd.ddd e±EE`:
sign, integer digits, fraction digits, exponent sign, exponent digits.
Fully decidable (no rational arithmetic). -/
structure DecParts where
  neg : Bool
  ip : List ℕ
  fp : List ℕ
  eneg : Bool
  ed : List ℕ
  deriving DecidableEq

/-- Parse a decimal literal into its `DecParts` (accepting Python's
`e+NN`/`e-NN` exponent forms). -/
def decodeParts (s : List Char) : Option DecParts :=
  let sp : Bool × List Char := if s.head? = some '-' then (true, s.tail) else (false, s)
  let ipp := takeDigits sp.2
  if ipp.1 = [] then none
  else
    let fpp := if ipp.2.head? = some '.' then takeDigits ipp.2.tail else ([], ipp.2)
    if fpp.2 = [] then some ⟨sp.1, ipp.1, fpp.1, false, []⟩
    else if fpp.2.head? = some 'e' then
      let esp : Bool × List Char :=
        if fpp.2.tail.head? = some '-' then (true, fpp.2.tail.tail)
        else if fpp.2.tail.head? = some '+' then (false, fpp.2.tail.tail)
        else (false, fpp.2.tail)
      let edd := takeDigits esp.2
      if edd.1 = [] then none
      else if ¬ edd.2 = [] then none
      else some ⟨sp.1, ipp.1, fpp.1, esp.1, edd.1⟩
    else none

/-- The rational value denoted by parsed parts. -/
def interpParts (p : DecParts) : ℚ :=
  (if p.neg then -1 else 1) * (digitsToNat (p.ip ++ p.fp) : ℚ) *
    (10 : ℚ) ^ ((if p.eneg then -1 else 1) * (digitsToNat p.ed : ℤ) - (p.fp.length : ℤ))

/-- Decode a decimal literal (`-ddd.ddde±EE`): the exact rational value the
string denotes under the standard reading.  This is the "parses to" side of
the spec claims; `float(s)` is this value rounded to binary64 (`ndbl`). -/
def decodeDec (s : List Char) : Option ℚ := (decodeParts s).map interpParts

example : decodeParts ['2', '.', '5'] = some ⟨false, [2], [5], false, []⟩ := by decide
example : decodeParts ['-', '1', '.', '5', 'e', '-', '3']
    = some ⟨true, [1], [5], true, [3]⟩ := by decide
example : decodeParts ['6', '.', '5', 'e', '+', '1', '6']
    = some ⟨false, [6], [5], false, [1, 6]⟩ := by decide
example : decodeParts ['0'] = some ⟨false, [0], [], false, []⟩ := by decide
example : roundCompactN ⟨false, [2, 5], -1⟩ 1 = ['2'] := by decide
example : roundCompactN ⟨false, [3, 5], -1⟩ 1 = ['4'] := by decide
example : roundCompactN ⟨false, [1, 2, 3, 4], 0⟩ 2 = ['1', '2', '0', '0'] := by decide
example : roundCompactN ⟨false, [1, 2, 3, 4], 0⟩ 3 = ['1', '2', '3', '0'] := by decide
example : roundCompactN ⟨true, [5], 0⟩ 3 = ['-', '5', '.', '0', '0'] := by decide
example : roundCompactN ⟨false, [7], -5⟩ 2 = ['7', '.', '0', 'e', '-', '5'] := by decide
example : roundCompactN ⟨false, [0], 0⟩ 3 = ['0', '.', '0', '0'] := by decide
example : roundCompactN ⟨false, [1, 0, 0, 0, 0, 0, 0, 0, 0, 0, 0], 0⟩ 1
    = ['1', 'e', '1', '0'] := by decide

/- ### Decoder correctness on composed strings -/

theorem digitOfChar_digitChar (d : ℕ) (hd : d < 10) :
    digitOfChar (digitChar d) = some d := by
  interval_cases d <;> decide

theorem digitOfChar_dot : digitOfChar '.' = none := by decide
theorem digitOfChar_e : digitOfChar 'e' = none := by decide
theorem digitOfChar_dash : digitOfChar '-' = none := by decide
theorem digitOfChar_plus : digitOfChar '+' = none := by decide

theorem digitChar_ne (d : ℕ) (hd : d < 10) (c : Char) (hc : digitOfChar c = none) :
    digitChar d ≠ c := by
  intro h
  have h1 := digitOfChar_digitChar d hd
  rw [h, hc] at h1
  exact Option.noConfusion h1

theorem natDigitsBE_ne_nil (m : ℕ) (hm : m ≠ 0) : natDigitsBE m ≠ [] := by
  rw [natDigitsBE_eq]
  simp [Nat.digits_eq_nil_iff_eq_zero, hm]

theorem takeDigits_spec (ds : List ℕ) (hds : ∀ d ∈ ds, d < 10) (rest : List Char)
    (hrest : ∀ c, rest.head? = some c → digitOfChar c = none) :
    takeDigits (digitChars ds ++ rest) = (ds, rest) := by
  induction ds with
  | nil =>
    cases rest with
    | nil => rfl
    | cons c cs =>
      have hc : digitOfChar c = none := hrest c rfl
      simp [takeDigits, hc, digitChars]
  | cons d t ih =>
    have hd : d < 10 := hds d (List.mem_cons_self _ _)
    have ht : ∀ x ∈ t, x < 10 := fun x hx => hds x (List.mem_cons_of_mem _ hx)
    have : digitChars (d :: t) ++ rest = digitChar d :: (digitChars t ++ rest) := rfl
    rw [this]
    simp [takeDigits, digitOfChar_digitChar d hd, ih ht]

theorem takeDigits_nil : takeDigits [] = ([], []) := rfl

/-- Parsing inverts composition, at the level of discrete parts. -/
theorem decodeParts_composeNumber (sign : ℤ) (mds : List ℕ) (dp : ℕ) (ex : ℤ)
    (hmds : ∀ d ∈ mds, d < 10) (hdp1 : 1 ≤ dp) (hdp2 : dp ≤ mds.length) :
    decodeParts (composeNumber sign mds dp ex) =
      some ⟨decide (sign = -1), mds.take dp, mds.drop dp, decide (ex < 0),
        if ex = 0 then [] else natDigitsBE ex.natAbs⟩ := by
  obtain ⟨d0, mtl, hmds0⟩ : ∃ d0 mtl, mds = d0 :: mtl := by
    cases hcm : mds with
    | nil => rw [hcm] at hdp2; simp at hdp2; omega
    | cons a l => exact ⟨a, l, rfl⟩
  have hd0 : d0 < 10 := by rw [hmds0] at hmds; exact hmds d0 (List.mem_cons_self _ _)
  have htake0 : mds.take dp = d0 :: mtl.take (dp - 1) := by
    rw [hmds0]
    obtain ⟨dp', rfl⟩ : ∃ dp', dp = dp' + 1 := ⟨dp - 1, by omega⟩
    simp
  set expPart : List Char := if ex ≠ 0 then 'e' :: intChars ex else [] with hexp
  have hexpHead : ∀ c, expPart.head? = some c → digitOfChar c = none := by
    intro c hc
    rw [hexp] at hc
    by_cases hx : ex ≠ 0
    · rw [if_pos hx] at hc
      simp only [List.head?_cons, Option.some.injEq] at hc
      rw [← hc]
      exact digitOfChar_e
    · rw [if_neg hx] at hc
      exact absurd hc (by simp)
  have hexpNotDot : ¬ expPart.head? = some '.' := by
    intro hc
    have h1 := hexpHead '.' hc
    rw [digitOfChar_dot] at h1
    by_cases hx : ex ≠ 0
    · rw [hexp, if_pos hx] at hc
      simp at hc
    · rw [hexp, if_neg hx] at hc
      simp at hc
  have htakedp : ∀ d ∈ mds.take dp, d < 10 := fun d hd => hmds d (List.mem_of_mem_take hd)
  have hdropdp : ∀ d ∈ mds.drop dp, d < 10 := fun d hd => hmds d (List.mem_of_mem_drop hd)
  -- the body after the optional sign: decimal part then exponent part
  set body : List Char := (if dp < mds.length then
      digitChars (mds.take dp) ++ '.' :: digitChars (mds.drop dp)
    else digitChars (mds.take dp)) ++ expPart with hbody
  have hcompose : composeNumber sign mds dp ex =
      (if sign = -1 then ['-'] else []) ++ body := by
    rw [composeNumber, hbody, hexp, List.append_assoc]
  -- stage 1: the integer-part digits
  have hstage1 : takeDigits body = (mds.take dp,
      (if dp < mds.length then '.' :: (digitChars (mds.drop dp) ++ expPart) else expPart)) := by
    rw [hbody]
    by_cases hlt : dp < mds.length
    · rw [if_pos hlt, if_pos hlt, List.append_assoc]
      exact takeDigits_spec _ htakedp _ (by
        intro c hc
        injection hc with h
        rw [← h]
        exact digitOfChar_dot)
    · rw [if_neg hlt, if_neg hlt]
      exact takeDigits_spec _ htakedp _ hexpHead
  -- stage 2: the fraction digits
  have hstage2 :
      (if ((if dp < mds.length then '.' :: (digitChars (mds.drop dp) ++ expPart)
            else expPart)).head? = some '.' then
        takeDigits ((if dp < mds.length then '.' :: (digitChars (mds.drop dp) ++ expPart)
            else expPart)).tail
      else ([], (if dp < mds.length then '.' :: (digitChars (mds.drop dp) ++ expPart)
            else expPart))) = (mds.drop dp, expPart) := by
    by_cases hlt : dp < mds.length
    · rw [if_pos hlt]
      simp only [List.head?_cons, List.tail_cons, if_pos rfl]
      exact takeDigits_spec _ hdropdp _ hexpHead
    · rw [if_neg hlt, if_neg hexpNotDot]
      rw [List.drop_of_length_le (by omega)]
  have htakene : ¬ (mds.take dp = []) := by
    rw [htake0]
    exact List.cons_ne_nil _ _
  have hbodyHead : body.head? = some (digitChar d0) := by
    rw [hbody]
    by_cases hlt : dp < mds.length
    · rw [if_pos hlt, htake0]
      rfl
    · rw [if_neg hlt, htake0]
      rfl
  rw [hcompose]
  have hsp : (if ((if sign = -1 then ['-'] else []) ++ body).head? = some '-'
        then (true, ((if sign = -1 then ['-'] else []) ++ body).tail)
        else (false, (if sign = -1 then ['-'] else []) ++ body))
      = (decide (sign = -1), body) := by
    by_cases hs : sign = -1
    · rw [if_pos hs]
      simp [hs]
    · rw [if_neg hs]
      rw [List.nil_append, hbodyHead]
      rw [if_neg (by
        intro h
        injection h with h2
        exact digitChar_ne d0 hd0 '-' digitOfChar_dash h2)]
      simp [hs]
  simp only [decodeParts]
  rw [hsp]
  simp only []
  rw [hstage1]
  simp only []
  rw [if_neg htakene, hstage2]
  simp only []
  by_cases hx : ex = 0
  · have hPnil : expPart = [] := by rw [hexp, if_neg (by omega)]
    rw [hPnil, if_pos rfl, hx]
    simp [hx]
  · have hPcons : expPart = 'e' :: intChars ex := by rw [hexp, if_pos hx]
    rw [hPcons, if_neg (List.cons_ne_nil _ _)]
    simp only [List.head?_cons, List.tail_cons, Option.some.injEq, eq_self_iff_true, if_true]
    have hnatne : ex.natAbs ≠ 0 := by omega
    obtain ⟨e0, etl, hed⟩ : ∃ e0 etl, natDigitsBE ex.natAbs = e0 :: etl := by
      cases hcd : natDigitsBE ex.natAbs with
      | nil => exact absurd hcd (natDigitsBE_ne_nil _ hnatne)
      | cons a l => exact ⟨a, l, rfl⟩
    have he0 : e0 < 10 := by
      have := natDigitsBE_lt ex.natAbs e0
      rw [hed] at this
      exact this (List.mem_cons_self _ _)
    have hedlt : ∀ d ∈ natDigitsBE ex.natAbs, d < 10 := natDigitsBE_lt _
    have htd : takeDigits (digitChars (natDigitsBE ex.natAbs)) = (natDigitsBE ex.natAbs, []) := by
      have := takeDigits_spec (natDigitsBE ex.natAbs) hedlt [] (by intro c hc; simp at hc)
      rwa [List.append_nil] at this
    by_cases hlt0 : ex < 0
    · have hInt : intChars ex = '-' :: digitChars (natDigitsBE ex.natAbs) := by
        rw [intChars, if_neg hx, if_pos hlt0]
        rfl
      rw [hInt]
      simp only [List.head?_cons, List.tail_cons, Option.some.injEq, eq_self_iff_true,
        if_true]
      rw [htd]
      simp only []
      rw [if_neg (by rw [hed]; exact List.cons_ne_nil _ _)]
      rw [if_neg (by simp)]
      simp [hlt0, hx]
    · have hInt : intChars ex = digitChars (natDigitsBE ex.natAbs) := by
        rw [intChars, if_neg hx, if_neg hlt0, List.nil_append]
      have hIntHead : (intChars ex).head? = some (digitChar e0) := by
        rw [hInt, hed]
        rfl
      have hne1 : ¬ ((intChars ex).head? = some '-') := by
        rw [hIntHead]
        intro h
        injection h with h2
        exact digitChar_ne e0 he0 '-' digitOfChar_dash h2
      have hne2 : ¬ ((intChars ex).head? = some '+') := by
        rw [hIntHead]
        intro h
        injection h with h2
        exact digitChar_ne e0 he0 '+' digitOfChar_plus h2
      rw [if_neg hne1, if_neg hne2]
      simp only []
      rw [hInt, htd]
      simp only []
      rw [if_neg (by rw [hed]; exact List.cons_ne_nil _ _)]
      rw [if_neg (by simp)]
      simp [hlt0, hx]

/-- Decoding inverts composition: a composed string denotes exactly
`sign * mantissa * 10^(exponent + decimal_place - number_of_digits)`. -/
theorem decodeDec_composeNumber (sign : ℤ) (mds : List ℕ) (dp : ℕ) (ex : ℤ)
    (hmds : ∀ d ∈ mds, d < 10) (hdp1 : 1 ≤ dp) (hdp2 : dp ≤ mds.length) :
    decodeDec (composeNumber sign mds dp ex) =
      some ((if sign = -1 then (-1 : ℚ) else 1) * (digitsToNat mds : ℚ) *
        (10 : ℚ) ^ (ex + (dp : ℤ) - (mds.length : ℤ))) := by
  rw [decodeDec, decodeParts_composeNumber sign mds dp ex hmds hdp1 hdp2]
  simp only [interpParts, Option.map_some', Option.some.injEq, decide_eq_true_eq]
  rw [List.take_append_drop]
  have h3 : (if ex < 0 then (-1 : ℤ) else 1) *
      (digitsToNat (if ex = 0 then ([] : List ℕ) else natDigitsBE ex.natAbs) : ℤ) = ex := by
    by_cases hx : ex = 0
    · simp [hx, digitsToNat]
    · by_cases hlt : ex < 0
      · rw [if_pos hlt, if_neg hx, digitsToNat_natDigitsBE]
        omega
      · rw [if_neg hlt, if_neg hx, digitsToNat_natDigitsBE]
        omega
  rw [h3, List.length_drop]
  congr 2
  omega

/- ### Decoding the two round_compact candidate strings -/

theorem digitsToNat_zeros_append (k : ℕ) (ds : List ℕ) :
    digitsToNat (List.replicate k 0 ++ ds) = digitsToNat ds := by
  rw [digitsToNat_append, digitsToNat_replicate_zero]
  ring

theorem digitsToNat_append_zeros (ds : List ℕ) (k : ℕ) :
    digitsToNat (ds ++ List.replicate k 0) = digitsToNat ds * 10 ^ k := by
  rw [digitsToNat_append, digitsToNat_replicate_zero, List.length_replicate]
  ring

theorem length_natDigitsBE_eq (m n : ℕ) (hn : 1 ≤ n) (h1 : 10 ^ (n - 1) ≤ m)
    (h2 : m < 10 ^ n) : (natDigitsBE m).length = n := by
  have hm : m ≠ 0 := by
    have hp : 0 < 10 ^ (n - 1) := pow_pos (by omega) _
    omega
  have hle : numDigits m ≤ n := (numDigits_le_iff m n hm).mpr h2
  have hlt : n - 1 < numDigits m := (lt_numDigits_iff m (n - 1) hm).mpr h1
  have hdef : (natDigitsBE m).length = numDigits m := rfl
  omega

theorem pow_merge (s q : ℚ) (k : ℕ) (a b : ℤ) (h : (k : ℤ) + a = b) :
    s * (q * (10 : ℚ) ^ k) * (10 : ℚ) ^ a = s * q * (10 : ℚ) ^ b := by
  rw [← h, zpow_add₀ (by norm_num : (10 : ℚ) ≠ 0), zpow_natCast]
  ring

theorem pow_congr_q (q s : ℚ) (a b : ℤ) (h : a = b) :
    s * q * (10 : ℚ) ^ a = s * q * (10 : ℚ) ^ b := by
  rw [h]

/-- The two candidate strings, written out explicitly: the scientific form,
and the result of the (at most one applicable) exponent-removal rewrite. -/
theorem roundCompactCandidates_eq (r : DecRep) (n : ℕ) (hn : 1 ≤ n)
    (s : ℤ) (m : ℕ) (E : ℤ)
    (hout : roundStandardFormComponents r n = (s, m, E)) :
    roundCompactCandidates r n =
      (composeNumber s (natDigitsBE m) 1 E,
       if 0 < E ∧ E < (n : ℤ) then composeNumber s (natDigitsBE m) (1 + E.toNat) 0
       else if (n : ℤ) ≤ E ∧ E ≤ (n : ℤ) + ((intChars E).length : ℤ) + 6 then
         composeNumber s (natDigitsBE m ++ List.replicate (E.toNat - n + 1) 0)
           (1 + E.toNat) 0
       else if -6 - ((intChars E).length : ℤ) ≤ E ∧ E < 0 then
         composeNumber s (List.replicate (-E).toNat 0 ++ natDigitsBE m) 1 0
       else composeNumber s (natDigitsBE m) 1 E) := by
  have hn0 : ¬ ((n : ℤ) ≤ 0) := by omega
  unfold roundCompactCandidates
  rw [hout]
  by_cases h1 : 0 < E ∧ E < (n : ℤ)
  · simp [h1, hn0]
  · by_cases h2 : (n : ℤ) ≤ E ∧ E ≤ (n : ℤ) + ((intChars E).length : ℤ) + 6
    · simp [h1, h2]
    · by_cases h3 : -6 - ((intChars E).length : ℤ) ≤ E ∧ E < 0
      · have h3a : -6 ≤ E + ((intChars E).length : ℤ) ∧ E < 0 := by
          constructor <;> omega
        simp [h1, h2, h3, h3a]
      · have h3a : ¬ (-6 ≤ E + ((intChars E).length : ℤ) ∧ E < 0) := by
          intro hc
          exact h3 ⟨by omega, hc.2⟩
        simp [h1, h2, h3, h3a]

/-- Both candidate strings built by `round_compact` denote exactly the
correctly rounded value `specSigRound x n`. -/
theorem decodeDec_roundCompactCandidates (r : DecRep) (hv : r.Valid) (n : ℕ)
    (hn : 1 ≤ n) (hnz : digitsToNat r.digits ≠ 0) :
    decodeDec (roundCompactCandidates r n).1 = some (specSigRound r.value n) ∧
    decodeDec (roundCompactCandidates r n).2 = some (specSigRound r.value n) := by
  rcases hout : roundStandardFormComponents r n with ⟨s, m, E⟩
  obtain ⟨hs, hm1, hm2, hval⟩ := roundStandardFormComponents_correct r hv n hn hnz s m E hout
  have hm0 : m ≠ 0 := by
    have hp : 0 < 10 ^ (n - 1) := pow_pos (by omega) (n - 1)
    omega
  have hlen : (natDigitsBE m).length = n := length_natDigitsBE_eq m n hn hm1 hm2
  have hdig : ∀ d ∈ natDigitsBE m, d < 10 := natDigitsBE_lt m
  have hs2 : s = -1 ∨ s = 1 := by
    rw [hs]
    by_cases hb : r.neg
    · left
      rw [if_pos hb]
    · right
      rw [if_neg hb]
  have hsQ : (if s = -1 then (-1 : ℚ) else 1) = (s : ℚ) := by
    rcases hs2 with h | h <;> rw [h] <;> norm_num
  rw [roundCompactCandidates_eq r n hn s m E hout]
  constructor
  · rw [decodeDec_composeNumber s (natDigitsBE m) 1 E hdig le_rfl
      (by rw [hlen]; exact hn)]
    rw [hsQ, digitsToNat_natDigitsBE, hlen, ← hval]
    congr 1
    exact pow_congr_q (m : ℚ) (s : ℚ) _ _ (by omega)
  · by_cases h1 : 0 < E ∧ E < (n : ℤ)
    · rw [if_pos h1]
      rw [decodeDec_composeNumber s (natDigitsBE m) (1 + E.toNat) 0 hdig (by omega)
        (by rw [hlen]; omega)]
      rw [hsQ, digitsToNat_natDigitsBE, hlen, ← hval]
      congr 1
      exact pow_congr_q (m : ℚ) (s : ℚ) _ _ (by omega)
    · by_cases h2 : (n : ℤ) ≤ E ∧ E ≤ (n : ℤ) + ((intChars E).length : ℤ) + 6
      · rw [if_neg h1, if_pos h2]
        have hdig2 : ∀ d ∈ natDigitsBE m ++ List.replicate (E.toNat - n + 1) 0, d < 10 := by
          intro d hd
          rcases List.mem_append.mp hd with h | h
          · exact hdig d h
          · rw [List.eq_of_mem_replicate h]
            omega
        rw [decodeDec_composeNumber s _ (1 + E.toNat) 0 hdig2 (by omega)
          (by rw [List.length_append, List.length_replicate, hlen]; omega)]
        rw [hsQ, digitsToNat_append_zeros, digitsToNat_natDigitsBE,
          List.length_append, List.length_replicate, hlen, ← hval]
        congr 1
        push_cast
        exact pow_merge (s : ℚ) (m : ℚ) (E.toNat - n + 1) _ _ (by push_cast; omega)
      · by_cases h3 : -6 - ((intChars E).length : ℤ) ≤ E ∧ E < 0
        · rw [if_neg h1, if_neg h2, if_pos h3]
          have hdig3 : ∀ d ∈ List.replicate (-E).toNat 0 ++ natDigitsBE m, d < 10 := by
            intro d hd
            rcases List.mem_append.mp hd with h | h
            · rw [List.eq_of_mem_replicate h]
              omega
            · exact hdig d h
          rw [decodeDec_composeNumber s _ 1 0 hdig3 le_rfl
            (by rw [List.length_append, List.length_replicate, hlen]; omega)]
          rw [hsQ, digitsToNat_zeros_append, digitsToNat_natDigitsBE,
            List.length_append, List.length_replicate, hlen, ← hval]
          congr 1
          exact pow_congr_q (m : ℚ) (s : ℚ) _ _ (by omega)
        · rw [if_neg h1, if_neg h2, if_neg h3]
          rw [decodeDec_composeNumber s (natDigitsBE m) 1 E hdig le_rfl
            (by rw [hlen]; exact hn)]
          rw [hsQ, digitsToNat_natDigitsBE, hlen, ← hval]
          congr 1
          exact pow_congr_q (m : ℚ) (s : ℚ) _ _ (by omega)

/-- The string produced by `round_compact` for `1 ≤ n ≤ 17` and a nonzero
input denotes exactly the correctly rounded value. -/
theorem decodeDec_roundCompactN (r : DecRep) (hv : r.Valid) (n : ℕ)
    (hn1 : 1 ≤ n) (hn2 : n ≤ 17) (hnz : digitsToNat r.digits ≠ 0) :
    decodeDec (roundCompactN r n) = some (specSigRound r.value n) := by
  have hn0 : ¬ (n = 0) := by omega
  have hmin : min n 17 = n := by omega
  have h := decodeDec_roundCompactCandidates r hv n hn1 hnz
  simp only [roundCompactN, if_neg hn0, hmin, if_neg hnz]
  by_cases hlt : (roundCompactCandidates r n).1.length < (roundCompactCandidates r n).2.length
  · rw [if_pos hlt]
    exact h.1
  · rw [if_neg hlt]
    exact h.2

/-- C1: for every valid nonzero decimal representation of a float `x` and every
`n` with `1 ≤ n ≤ 17`, the string returned by `round_compact(x, n)` denotes
exactly the correctly-rounded decimal rounding of `x` to `n` significant
digits with round-half-to-even tie-breaking (`specSigRound`); parsing it with
`float` therefore yields the binary64 rounding of that correctly rounded
value.  In particular, rounding `2.5` to 1 significant digit yields the
string "2" (value 2) and rounding `3.5` yields "4" (value 4). -/
theorem claim_C1 :
    (∀ (r : DecRep), r.Valid → digitsToNat r.digits ≠ 0 → ∀ n : ℕ, 1 ≤ n → n ≤ 17 →
      decodeDec (roundCompactN r n) = some (specSigRound r.value n)) ∧
    roundCompactN ⟨false, [2, 5], -1⟩ 1 = ['2'] ∧
    (⟨false, [2, 5], -1⟩ : DecRep).value = 5 / 2 ∧
    specSigRound (5 / 2) 1 = 2 ∧
    roundCompactN ⟨false, [3, 5], -1⟩ 1 = ['4'] ∧
    (⟨false, [3, 5], -1⟩ : DecRep).value = 7 / 2 ∧
    specSigRound (7 / 2) 1 = 4 := by
  have hlog25 : Int.log 10 |(5 / 2 : ℚ)| = 0 := by
    rw [abs_of_pos (by norm_num : (0 : ℚ) < 5 / 2)]
    exact int_log_eq_of_bounds (5 / 2) 0 (by norm_num) (by norm_num) (by norm_num)
  have hlog35 : Int.log 10 |(7 / 2 : ℚ)| = 0 := by
    rw [abs_of_pos (by norm_num : (0 : ℚ) < 7 / 2)]
    exact int_log_eq_of_bounds (7 / 2) 0 (by norm_num) (by norm_num) (by norm_num)
  have hfl25 : ⌊(5 / 2 : ℚ)⌋ = 2 := by
    rw [Int.floor_eq_iff] <;> norm_num
  have hfl35 : ⌊(7 / 2 : ℚ)⌋ = 3 := by
    rw [Int.floor_eq_iff] <;> norm_num
  refine ⟨fun r hv hnz n hn1 hn2 => decodeDec_roundCompactN r hv n hn1 hn2 hnz,
    by decide, ?_, ?_, by decide, ?_, ?_⟩
  · rw [DecRep.value]
    norm_num [digitsToNat]
  · rw [specSigRound, if_neg (by norm_num : ¬ (5 / 2 : ℚ) = 0), hlog25,
      abs_of_pos (by norm_num : (0 : ℚ) < 5 / 2)]
    norm_num [rhte, hfl25]
  · rw [DecRep.value]
    norm_num [digitsToNat]
  · rw [specSigRound, if_neg (by norm_num : ¬ (7 / 2 : ℚ) = 0), hlog35,
      abs_of_pos (by norm_num : (0 : ℚ) < 7 / 2)]
    norm_num [rhte, hfl35]

/-- Witness for C1 at a concrete input: the digit expansion of `2.5`, two
significant digits. -/
theorem claim_C1_witness :
    decodeDec (roundCompactN ⟨false, [2, 5], -1⟩ 2) =
      some (specSigRound ((⟨false, [2, 5], -1⟩ : DecRep).value) 2) :=
  claim_C1.1 ⟨false, [2, 5], -1⟩ (by decide) (by decide) 2 (by decide) (by decide)

/- ### Binary64 rounding: the meaning of Python's float(s)

`float(s)` parses the decimal literal `s` to its exact rational value and
rounds it to the nearest IEEE-754 binary64 value, ties to even.  We model
the finite binary64 values (with unbounded upper range, enough for the
magnitudes handled here) as the set `Rd`, and the rounding as `ndbl`,
built from `rhte` at the scale `2 ^ ndblExp q`. -/

/-- Fuel-based `⌊log₂ q⌋` for `1 ≤ q`: halve until below 2. -/
def ratLog2Pos : ℕ → ℚ → ℕ
  | 0, _ => 0
  | fuel + 1, q => if q < 2 then 0 else ratLog2Pos fuel (q / 2) + 1

/-- Fuel-based magnitude of `⌊log₂ q⌋` for `0 < q < 1`: double until at
least 1. -/
def ratLog2Neg : ℕ → ℚ → ℕ
  | 0, _ => 0
  | fuel + 1, q => if 1 ≤ q then 0 else ratLog2Neg fuel (q * 2) + 1

/-- `⌊log₂ q⌋` for a positive rational (junk on nonpositive input). -/
def ratLog2 (q : ℚ) : ℤ :=
  if 1 ≤ q then (ratLog2Pos q.num.natAbs q : ℤ) else -(ratLog2Neg q.den q : ℤ)

theorem ratLog2Pos_spec : ∀ (fuel : ℕ) (q : ℚ), 1 ≤ q → q < 2 ^ fuel →
    (2 : ℚ) ^ ratLog2Pos fuel q ≤ q ∧ q < 2 ^ (ratLog2Pos fuel q + 1) := by
  intro fuel
  induction fuel with
  | zero =>
    intro q h1 h2
    norm_num at h2
    linarith
  | succ f ih =>
    intro q h1 h2
    rw [ratLog2Pos]
    by_cases hq : q < 2
    · rw [if_pos hq]
      constructor
      · simpa using h1
      · simpa using hq
    · rw [if_neg hq]
      push_neg at hq
      have h1x : 1 ≤ q / 2 := by linarith
      have h2x : q / 2 < 2 ^ f := by
        rw [div_lt_iff₀ (by norm_num : (0 : ℚ) < 2)]
        calc q < 2 ^ (f + 1) := h2
          _ = 2 ^ f * 2 := by rw [pow_succ]
      obtain ⟨ha, hb⟩ := ih (q / 2) h1x h2x
      constructor
      · rw [pow_succ]
        rw [le_div_iff₀ (by norm_num : (0 : ℚ) < 2)] at ha
        linarith
      · rw [pow_succ]
        rw [div_lt_iff₀ (by norm_num : (0 : ℚ) < 2)] at hb
        exact hb

theorem ratLog2Neg_spec : ∀ (fuel : ℕ) (q : ℚ), 0 < q → q < 2 → 1 ≤ q * 2 ^ fuel →
    (2 : ℚ) ^ (-(ratLog2Neg fuel q : ℤ)) ≤ q ∧
      q < 2 ^ (-(ratLog2Neg fuel q : ℤ) + 1) := by
  intro fuel
  induction fuel with
  | zero =>
    intro q h0 h2 h1
    rw [pow_zero, mul_one] at h1
    rw [ratLog2Neg]
    norm_num
    constructor <;> [linarith; linarith]
  | succ f ih =>
    intro q h0 h2 h1
    rw [ratLog2Neg]
    by_cases hq : 1 ≤ q
    · rw [if_pos hq]
      norm_num
      constructor <;> [linarith; linarith]
    · rw [if_neg hq]
      push_neg at hq
      have h0x : 0 < q * 2 := by linarith
      have h2x : q * 2 < 2 := by linarith
      have h1x : 1 ≤ q * 2 * 2 ^ f := by
        rw [pow_succ] at h1
        linarith [h1]
      obtain ⟨ha, hb⟩ := ih (q * 2) h0x h2x h1x
      have hcast : (((ratLog2Neg f (q * 2) + 1 : ℕ)) : ℤ) =
          (ratLog2Neg f (q * 2) : ℤ) + 1 := by push_cast; ring
      rw [hcast]
      have hz : (2 : ℚ) ^ (-((ratLog2Neg f (q * 2) : ℤ) + 1)) =
          2 ^ (-(ratLog2Neg f (q * 2) : ℤ)) / 2 := by
        rw [eq_div_iff (by norm_num : (2 : ℚ) ≠ 0),
          ← zpow_add_one₀ (by norm_num : (2 : ℚ) ≠ 0)]
        congr 1
        ring
      have hz2 : (2 : ℚ) ^ (-((ratLog2Neg f (q * 2) : ℤ) + 1) + 1) =
          2 ^ (-(ratLog2Neg f (q * 2) : ℤ) + 1) / 2 := by
        rw [eq_div_iff (by norm_num : (2 : ℚ) ≠ 0),
          ← zpow_add_one₀ (by norm_num : (2 : ℚ) ≠ 0)]
        congr 1
        ring
      rw [hz, hz2]
      constructor
      · rw [div_le_iff₀ (by norm_num : (0 : ℚ) < 2)]
        linarith
      · rw [lt_div_iff₀ (by norm_num : (0 : ℚ) < 2)]
        linarith

/-- Characterization: `ratLog2` is the binary logarithm floor. -/
theorem ratLog2_spec (q : ℚ) (hq : 0 < q) :
    (2 : ℚ) ^ ratLog2 q ≤ q ∧ q < 2 ^ (ratLog2 q + 1) := by
  rw [ratLog2]
  by_cases h1 : 1 ≤ q
  · rw [if_pos h1]
    have hnum : (1 : ℤ) ≤ q.num := by
      rw [← Rat.num_pos] at hq
      omega
    have hqnum : q ≤ (q.num.natAbs : ℚ) := by
      have hd : (1 : ℚ) ≤ (q.den : ℚ) := by
        have := q.pos
        exact_mod_cast this
      have habs : ((q.num.natAbs : ℤ) : ℚ) = (q.num : ℚ) := by
        congr 1
        omega
      calc q = (q.num : ℚ) / (q.den : ℚ) := (Rat.num_div_den q).symm
        _ ≤ (q.num : ℚ) / 1 := by
          apply div_le_div_of_nonneg_left _ (by norm_num) hd
          have : (0 : ℚ) < q.num := by exact_mod_cast hnum
          linarith
        _ = (q.num : ℚ) := by ring
        _ = (q.num.natAbs : ℚ) := by
          have h0 : (0 : ℚ) ≤ (q.num : ℚ) := by
            have : (0 : ℤ) ≤ q.num := by omega
            exact_mod_cast this
          push_cast [Int.cast_natAbs]
          rw [abs_of_nonneg h0]
    have hfuel : q < 2 ^ q.num.natAbs := by
      calc q ≤ (q.num.natAbs : ℚ) := hqnum
        _ < 2 ^ q.num.natAbs := by
          have := Nat.lt_two_pow q.num.natAbs
          exact_mod_cast this
    obtain ⟨ha, hb⟩ := ratLog2Pos_spec q.num.natAbs q h1 hfuel
    constructor
    · rw [zpow_natCast]
      exact ha
    · have : ((ratLog2Pos q.num.natAbs q : ℤ) + 1) = ((ratLog2Pos q.num.natAbs q + 1 : ℕ) : ℤ) := by
        push_cast
        ring
      rw [this, zpow_natCast]
      exact hb
  · rw [if_neg h1]
    push_neg at h1
    have hnum : (1 : ℤ) ≤ q.num := by
      rw [← Rat.num_pos] at hq
      omega
    have hden1 : (1 : ℚ) ≤ (2 : ℚ) ^ q.den / q.den := by
      have hdpos : (0 : ℚ) < (q.den : ℚ) := by
        have := q.pos
        exact_mod_cast this
      rw [le_div_iff₀ hdpos, one_mul]
      have := Nat.lt_two_pow q.den
      exact_mod_cast this.le
    have hfuel : 1 ≤ q * 2 ^ q.den := by
      have hq_lb : (1 : ℚ) / q.den ≤ q := by
        have hdpos : (0 : ℚ) < (q.den : ℚ) := by
          have := q.pos
          exact_mod_cast this
        rw [div_le_iff₀ hdpos]
        have : (1 : ℚ) ≤ (q.num : ℚ) := by exact_mod_cast hnum
        calc (1 : ℚ) ≤ (q.num : ℚ) := this
          _ = q * q.den := by
            rw [← div_eq_iff (by positivity : (q.den : ℚ) ≠ 0)]
            exact Rat.num_div_den q
      have hdpos : (0 : ℚ) < (q.den : ℚ) := by
        have := q.pos
        exact_mod_cast this
      calc (1 : ℚ) ≤ (2 : ℚ) ^ q.den / q.den := hden1
        _ = (1 / q.den) * 2 ^ q.den := by ring
        _ ≤ q * 2 ^ q.den := by
          apply mul_le_mul_of_nonneg_right hq_lb
          positivity
    exact ratLog2Neg_spec q.den q hq (by linarith) hfuel

/-- Uniqueness: the binary-logarithm bounds pin `ratLog2` down; concrete
evaluations of `ratLog2` go through this and `norm_num`. -/
theorem ratLog2_eq (q : ℚ) (e : ℤ) (hq : 0 < q) (h1 : (2 : ℚ) ^ e ≤ q)
    (h2 : q < 2 ^ (e + 1)) : ratLog2 q = e := by
  obtain ⟨ha, hb⟩ := ratLog2_spec q hq
  by_contra hne
  rcases lt_or_gt_of_ne hne with h | h
  · have hc : (2 : ℚ) ^ (ratLog2 q + 1) ≤ 2 ^ e :=
      zpow_le_zpow_right₀ (by norm_num) (by omega)
    linarith
  · have hc : (2 : ℚ) ^ (e + 1) ≤ 2 ^ ratLog2 q :=
      zpow_le_zpow_right₀ (by norm_num) (by omega)
    linarith

/-- The finite binary64 values (sign-symmetric, unbounded above — enough for
the magnitudes arising here): `m · 2^E` with `|m| < 2^53` and `E ≥ -1074`. -/
def Rd (y : ℚ) : Prop :=
  ∃ m E : ℤ, y = m * (2 : ℚ) ^ E ∧ |m| < 2 ^ 53 ∧ -1074 ≤ E

/-- The rounding scale used by binary64 for a value of magnitude `|q|`. -/
def ndblExp (q : ℚ) : ℤ := max (ratLog2 |q| - 52) (-1074)

/-- IEEE-754 binary64 round-to-nearest, ties to even: the value of Python's
`float(s)` on a decimal literal `s` of exact value `q` (finite range). -/
def ndbl (q : ℚ) : ℚ :=
  if q = 0 then 0 else (rhte (q / 2 ^ ndblExp q) : ℚ) * 2 ^ ndblExp q

theorem ndbl_zero : ndbl 0 = 0 := by
  rw [ndbl, if_pos rfl]

theorem abs_ndbl_sub_le (q : ℚ) : |ndbl q - q| ≤ 2 ^ (ndblExp q - 1) := by
  by_cases hq : q = 0
  · rw [hq, ndbl_zero]
    simp only [sub_zero, abs_zero]
    positivity
  · rw [ndbl, if_neg hq]
    have hpow : (0 : ℚ) < 2 ^ ndblExp q := by positivity
    have hv := abs_rhte_sub_le (q / 2 ^ ndblExp q)
    have hsplit : (rhte (q / 2 ^ ndblExp q) : ℚ) * 2 ^ ndblExp q - q =
        ((rhte (q / 2 ^ ndblExp q) : ℚ) - q / 2 ^ ndblExp q) * 2 ^ ndblExp q := by
      field_simp
    rw [hsplit, abs_mul, abs_of_pos hpow]
    calc |(rhte (q / 2 ^ ndblExp q) : ℚ) - q / 2 ^ ndblExp q| * 2 ^ ndblExp q
        ≤ 1 / 2 * 2 ^ ndblExp q := by
          apply mul_le_mul_of_nonneg_right hv hpow.le
      _ = 2 ^ (ndblExp q - 1) := by
          rw [zpow_sub₀ (by norm_num : (2 : ℚ) ≠ 0), zpow_one]
          ring

theorem ndbl_nearest (q y : ℚ) (hy : Rd y) : |ndbl q - q| ≤ |y - q| := by
  by_cases hq : q = 0
  · rw [hq, ndbl_zero]
    simp only [sub_zero, abs_zero]
    positivity
  obtain ⟨mp, Ep, hy_eq, hmp, hEp⟩ := hy
  by_cases hE : ndblExp q ≤ Ep
  · rw [ndbl, if_neg hq]
    have hpow : (0 : ℚ) < 2 ^ ndblExp q := by positivity
    have hk : y = ((mp * 2 ^ (Ep - ndblExp q).toNat : ℤ) : ℚ) * 2 ^ ndblExp q := by
      rw [hy_eq]
      push_cast
      rw [mul_assoc, ← zpow_natCast (2 : ℚ) (Ep - ndblExp q).toNat,
        ← zpow_add₀ (by norm_num : (2 : ℚ) ≠ 0)]
      congr 2
      omega
    have hnear := rhte_nearest (q / 2 ^ ndblExp q) (mp * 2 ^ (Ep - ndblExp q).toNat)
    have hsplit : (rhte (q / 2 ^ ndblExp q) : ℚ) * 2 ^ ndblExp q - q =
        ((rhte (q / 2 ^ ndblExp q) : ℚ) - q / 2 ^ ndblExp q) * 2 ^ ndblExp q := by
      field_simp
    have hsplit2 : y - q =
        (((mp * 2 ^ (Ep - ndblExp q).toNat : ℤ) : ℚ) - q / 2 ^ ndblExp q) *
          2 ^ ndblExp q := by
      rw [hk]
      field_simp
    rw [hsplit, hsplit2, abs_mul, abs_mul, abs_of_pos hpow]
    exact mul_le_mul_of_nonneg_right hnear hpow.le
  · push_neg at hE
    have hqpos : (0 : ℚ) < |q| := abs_pos.mpr hq
    have hE0 : ndblExp q = ratLog2 |q| - 52 := by
      rw [ndblExp] at hE ⊢
      omega
    have hq_lb : (2 : ℚ) ^ ratLog2 |q| ≤ |q| := (ratLog2_spec |q| hqpos).1
    have hy_ub : |y| ≤ (2 : ℚ) ^ ratLog2 |q| - 2 ^ (ndblExp q - 1) := by
      have habs : |y| = |(mp : ℚ)| * 2 ^ Ep := by
        rw [hy_eq, abs_mul, abs_of_pos (by positivity : (0 : ℚ) < (2 : ℚ) ^ Ep)]
      have hm_ub : |(mp : ℚ)| ≤ 2 ^ 53 - 1 := by
        have : |mp| ≤ 2 ^ 53 - 1 := by omega
        calc |(mp : ℚ)| = ((|mp| : ℤ) : ℚ) := by push_cast; ring
          _ ≤ ((2 ^ 53 - 1 : ℤ) : ℚ) := by exact_mod_cast this
          _ = 2 ^ 53 - 1 := by push_cast; ring
      have hEp_ub : (2 : ℚ) ^ Ep ≤ 2 ^ (ndblExp q - 1) :=
        zpow_le_zpow_right₀ (by norm_num) (by omega)
      calc |y| = |(mp : ℚ)| * 2 ^ Ep := habs
        _ ≤ (2 ^ 53 - 1) * 2 ^ (ndblExp q - 1) := by
            apply mul_le_mul hm_ub hEp_ub (by positivity) (by norm_num)
        _ = 2 ^ 53 * 2 ^ (ndblExp q - 1) - 2 ^ (ndblExp q - 1) := by ring
        _ = 2 ^ ratLog2 |q| - 2 ^ (ndblExp q - 1) := by
            congr 1
            rw [show (2 : ℚ) ^ 53 = (2 : ℚ) ^ (53 : ℤ) from (zpow_natCast 2 53).symm,
              ← zpow_add₀ (by norm_num : (2 : ℚ) ≠ 0)]
            congr 1
            omega
    have h1 : |ndbl q - q| ≤ 2 ^ (ndblExp q - 1) := abs_ndbl_sub_le q
    have h2 : |q| - |y| ≤ |y - q| := by
      rw [abs_sub_comm]
      exact abs_sub_abs_le_abs_sub q y
    linarith

theorem Rd_ndbl (q : ℚ) : Rd (ndbl q) := by
  by_cases hq : q = 0
  · refine ⟨0, -1074, ?_, by norm_num, le_refl _⟩
    rw [hq, ndbl_zero]
    norm_num
  · rw [ndbl, if_neg hq]
    have hqpos : (0 : ℚ) < |q| := abs_pos.mpr hq
    have hpow : (0 : ℚ) < (2 : ℚ) ^ ndblExp q := by positivity
    have hub : |q| < 2 ^ (ratLog2 |q| + 1) := (ratLog2_spec |q| hqpos).2
    have hE0 : ratLog2 |q| - 52 ≤ ndblExp q := le_max_left _ _
    have hv : |q / 2 ^ ndblExp q| < 2 ^ 53 := by
      rw [abs_div, abs_of_pos hpow, div_lt_iff₀ hpow]
      have hstep : (2 : ℚ) ^ (ratLog2 |q| + 1) ≤ 2 ^ ((53 : ℤ) + ndblExp q) :=
        zpow_le_zpow_right₀ (by norm_num) (by omega)
      have hsplit : (2 : ℚ) ^ ((53 : ℤ) + ndblExp q) = 2 ^ (53 : ℕ) * 2 ^ ndblExp q := by
        rw [zpow_add₀ (by norm_num : (2 : ℚ) ≠ 0)]
        norm_num
      calc |q| < 2 ^ (ratLog2 |q| + 1) := hub
        _ ≤ 2 ^ ((53 : ℤ) + ndblExp q) := hstep
        _ = 2 ^ (53 : ℕ) * 2 ^ ndblExp q := hsplit
    have hr := abs_rhte_sub_le (q / 2 ^ ndblExp q)
    have habs1 : |(rhte (q / 2 ^ ndblExp q) : ℚ)| ≤ |q / 2 ^ ndblExp q| + 1 / 2 := by
      have htri : |(rhte (q / 2 ^ ndblExp q) : ℚ)| ≤
          |(rhte (q / 2 ^ ndblExp q) : ℚ) - q / 2 ^ ndblExp q| + |q / 2 ^ ndblExp q| := by
        calc |(rhte (q / 2 ^ ndblExp q) : ℚ)|
            = |((rhte (q / 2 ^ ndblExp q) : ℚ) - q / 2 ^ ndblExp q) + q / 2 ^ ndblExp q| := by
              congr 1
              ring
          _ ≤ _ := abs_add _ _
      linarith
    have hm : |rhte (q / 2 ^ ndblExp q)| ≤ 2 ^ 53 := by
      by_contra hc
      push_neg at hc
      have hc2 : (2 : ℤ) ^ 53 + 1 ≤ |rhte (q / 2 ^ ndblExp q)| := by omega
      have hc3 : ((2 : ℚ)) ^ (53 : ℕ) + 1 ≤ |(rhte (q / 2 ^ ndblExp q) : ℚ)| := by
        rw [← Int.cast_abs]
        exact_mod_cast hc2
      linarith
    rcases lt_or_eq_of_le hm with hlt | heq
    · exact ⟨rhte (q / 2 ^ ndblExp q), ndblExp q, rfl, hlt, le_max_right _ _⟩
    · have hE1 : -1074 ≤ ndblExp q := le_max_right _ _
      rcases (abs_eq (by norm_num : (0 : ℤ) ≤ 2 ^ 53)).mp heq with hcase | hcase <;>
        refine ⟨rhte (q / 2 ^ ndblExp q) / 2, ndblExp q + 1, ?_,
          by rw [hcase]; decide, by omega⟩ <;>
      · have heven : rhte (q / 2 ^ ndblExp q) = 2 * (rhte (q / 2 ^ ndblExp q) / 2) := by
          rw [hcase]
          decide
        calc (rhte (q / 2 ^ ndblExp q) : ℚ) * 2 ^ ndblExp q
            = ((2 * (rhte (q / 2 ^ ndblExp q) / 2) : ℤ) : ℚ) * 2 ^ ndblExp q := by
              rw [← heven]
          _ = ((rhte (q / 2 ^ ndblExp q) / 2 : ℤ) : ℚ) * 2 ^ (ndblExp q + 1) := by
              push_cast
              rw [zpow_add_one₀ (by norm_num : (2 : ℚ) ≠ 0)]
              ring

theorem ndbl_fixed (q : ℚ) (h : Rd q) : ndbl q = q := by
  have h1 := ndbl_nearest q q h
  rw [sub_self, abs_zero] at h1
  have h2 : |ndbl q - q| = 0 := le_antisymm h1 (abs_nonneg _)
  exact sub_eq_zero.mp (abs_eq_zero.mp h2)

/-- If some representable `x` is strictly closer to `q` than every other
representable value, then `float` of `q` is exactly `x`. -/
theorem ndbl_eq_of_strict (q x : ℚ) (hx : Rd x)
    (h : ∀ y, Rd y → y ≠ x → |x - q| < |y - q|) : ndbl q = x := by
  by_contra hne
  have h1 := ndbl_nearest q x hx
  have h2 := h (ndbl q) (Rd_ndbl q) hne
  rw [abs_sub_comm x q, abs_sub_comm (ndbl q) q] at *
  linarith

/-- The correctly rounded value is within half an ulp of the decimal grid. -/
theorem abs_specSigRound_sub_le (v : ℚ) (n : ℕ) :
    |specSigRound v n - v| ≤ 1 / 2 * 10 ^ (Int.log 10 |v| - (n : ℤ) + 1) := by
  by_cases hv : v = 0
  · rw [hv, specSigRound, if_pos rfl]
    simp only [sub_zero, abs_zero]
    positivity
  · rw [specSigRound, if_neg hv]
    set e := Int.log 10 |v| with he
    set w := |v| * (10 : ℚ) ^ ((n : ℤ) - 1 - e) with hw
    set g := (10 : ℚ) ^ (e - (n : ℤ) + 1) with hgdef
    have hgpos : (0 : ℚ) < g := by
      rw [hgdef]
      positivity
    have hwg : w * g = |v| := by
      rw [hw, hgdef, mul_assoc, ← zpow_add₀ (by norm_num : (10 : ℚ) ≠ 0),
        show (n : ℤ) - 1 - e + (e - (n : ℤ) + 1) = 0 by ring, zpow_zero, mul_one]
    have hmain : abs ((rhte w : ℚ) * g - |v|) ≤ 1 / 2 * g := by
      rw [show (rhte w : ℚ) * g - |v| = ((rhte w : ℚ) - w) * g from by rw [← hwg]; ring,
        abs_mul, abs_of_pos hgpos]
      exact mul_le_mul_of_nonneg_right (abs_rhte_sub_le w) hgpos.le
    by_cases hneg : v < 0
    · rw [if_pos hneg]
      have habs : |v| = -v := abs_of_neg hneg
      have hdiff : (-1 : ℚ) * (rhte w : ℚ) * g - v = -((rhte w : ℚ) * g - |v|) := by
        rw [habs]
        ring
      rw [hdiff, abs_neg]
      exact hmain
    · rw [if_neg hneg]
      have habs : |v| = v := abs_of_nonneg (by push_neg at hneg; exact hneg)
      have hdiff : (1 : ℚ) * (rhte w : ℚ) * g - v = (rhte w : ℚ) * g - |v| := by
        rw [habs]
        ring
      rw [hdiff]
      exact hmain

/-- Separation of doubles: a canonically represented double `m · 2^E` is
further than `|m| · 2^E / 10^16` from every other representable value. -/
theorem double_sep (m E : ℤ) (hm : |m| < 2 ^ 53) (hE : -1074 ≤ E)
    (hcanon : 2 ^ 52 ≤ |m| ∨ E = -1074) (y : ℚ) (hy : Rd y)
    (hne : y ≠ (m : ℚ) * 2 ^ E) :
    |(m : ℚ)| * 2 ^ E / 10 ^ 16 < |y - (m : ℚ) * 2 ^ E| := by
  obtain ⟨mp, Ep, hy_eq, hmp, hEp⟩ := hy
  have hpowE : (0 : ℚ) < (2 : ℚ) ^ E := by positivity
  have hmQ : |(m : ℚ)| < 2 ^ 53 := by
    rw [← Int.cast_abs]
    exact_mod_cast hm
  by_cases hEE : E ≤ Ep
  · have hk : y - (m : ℚ) * 2 ^ E =
        ((mp * 2 ^ (Ep - E).toNat - m : ℤ) : ℚ) * 2 ^ E := by
      rw [hy_eq]
      push_cast
      rw [sub_mul, mul_assoc, ← zpow_natCast (2 : ℚ) (Ep - E).toNat,
        ← zpow_add₀ (by norm_num : (2 : ℚ) ≠ 0)]
      congr 3
      omega
    have hk0 : (mp * 2 ^ (Ep - E).toNat - m : ℤ) ≠ 0 := by
      intro hzero
      apply hne
      apply sub_eq_zero.mp
      rw [hk, hzero]
      norm_num
    have habs : (2 : ℚ) ^ E ≤ |y - (m : ℚ) * 2 ^ E| := by
      rw [hk, abs_mul, abs_of_pos hpowE]
      have h1 : (1 : ℚ) ≤ |((mp * 2 ^ (Ep - E).toNat - m : ℤ) : ℚ)| := by
        rw [← Int.cast_abs]
        have hge : (1 : ℤ) ≤ |mp * 2 ^ (Ep - E).toNat - m| := by
          rcases hk0.lt_or_lt with h | h
          · rw [abs_of_neg h]
            omega
          · rw [abs_of_pos h]
            omega
        exact_mod_cast hge
      calc (2 : ℚ) ^ E = 1 * 2 ^ E := (one_mul _).symm
        _ ≤ |((mp * 2 ^ (Ep - E).toNat - m : ℤ) : ℚ)| * 2 ^ E :=
            mul_le_mul_of_nonneg_right h1 hpowE.le
    have hfinal : |(m : ℚ)| * 2 ^ E / 10 ^ 16 < 2 ^ E := by
      rw [div_lt_iff₀ (by norm_num : (0 : ℚ) < 10 ^ 16)]
      have hsmall : |(m : ℚ)| < 10 ^ 16 := lt_trans hmQ (by norm_num)
      nlinarith [hpowE, hsmall, abs_nonneg (m : ℚ)]
    linarith
  · push_neg at hEE
    have hEne : E ≠ -1074 := by omega
    have hm52 : (2 : ℤ) ^ 52 ≤ |m| := hcanon.resolve_right hEne
    have hm52Q : (2 : ℚ) ^ 52 ≤ |(m : ℚ)| := by
      rw [← Int.cast_abs]
      exact_mod_cast hm52
    have hpowE1 : (0 : ℚ) < (2 : ℚ) ^ (E - 1) := by positivity
    have h2E : (2 : ℚ) ^ E = 2 ^ (E - 1) * 2 := by
      rw [← zpow_add_one₀ (by norm_num : (2 : ℚ) ≠ 0) (E - 1)]
      congr 1
      ring
    have hy_ub : |y| ≤ (2 ^ 53 - 1) * 2 ^ (E - 1) := by
      rw [hy_eq, abs_mul, abs_of_pos (by positivity : (0 : ℚ) < (2 : ℚ) ^ Ep)]
      have h1 : |(mp : ℚ)| ≤ 2 ^ 53 - 1 := by
        rw [← Int.cast_abs]
        have hge : |mp| ≤ 2 ^ 53 - 1 := by omega
        calc ((|mp| : ℤ) : ℚ) ≤ ((2 ^ 53 - 1 : ℤ) : ℚ) := by exact_mod_cast hge
          _ = 2 ^ 53 - 1 := by push_cast; ring
      have h2 : (2 : ℚ) ^ Ep ≤ 2 ^ (E - 1) :=
        zpow_le_zpow_right₀ (by norm_num) (by omega)
      exact mul_le_mul h1 h2 (by positivity) (by norm_num)
    have hdiff : (2 * |(m : ℚ)| - (2 ^ 53 - 1)) * 2 ^ (E - 1) ≤
        |y - (m : ℚ) * 2 ^ E| := by
      have h3 : abs ((m : ℚ) * 2 ^ E) - |y| ≤ abs (y - (m : ℚ) * 2 ^ E) := by
        rw [abs_sub_comm]
        exact abs_sub_abs_le_abs_sub _ _
      have h4 : abs ((m : ℚ) * 2 ^ E) = |(m : ℚ)| * 2 ^ E := by
        rw [abs_mul, abs_of_pos hpowE]
      rw [h4] at h3
      have h5 : |(m : ℚ)| * 2 ^ E = 2 * |(m : ℚ)| * 2 ^ (E - 1) := by
        rw [h2E]
        ring
      linarith
    have hinner : 2 * |(m : ℚ)| / 10 ^ 16 < 2 * |(m : ℚ)| - (2 ^ 53 - 1) := by
      have hc1 : (4503599627370496 : ℚ) ≤ |(m : ℚ)| := by
        calc (4503599627370496 : ℚ) = 2 ^ 52 := by norm_num
          _ ≤ |(m : ℚ)| := hm52Q
      linarith
    have hkey : |(m : ℚ)| * 2 ^ E / 10 ^ 16 <
        (2 * |(m : ℚ)| - (2 ^ 53 - 1)) * 2 ^ (E - 1) := by
      calc |(m : ℚ)| * 2 ^ E / 10 ^ 16
          = (2 * |(m : ℚ)| / 10 ^ 16) * 2 ^ (E - 1) := by
            rw [h2E]
            ring
        _ < (2 * |(m : ℚ)| - (2 ^ 53 - 1)) * 2 ^ (E - 1) :=
            mul_lt_mul_of_pos_right hinner hpowE1
    linarith

/-- `float(s)` for a produced string: parse the decimal literal and round to
binary64 (the strings we decode always parse, `getD` covers the junk case). -/
def asFloat (s : List Char) : ℚ := ndbl ((decodeDec s).getD 0)

/-- The rounded 17-digit value is strictly closer to a double `x` than to
any other representable value, so `float` brings it back to `x` exactly. -/
theorem ndbl_specSigRound17 (x : ℚ) (m E : ℤ) (hx : x = (m : ℚ) * 2 ^ E)
    (hx0 : x ≠ 0) (hm : |m| < 2 ^ 53) (hE : -1074 ≤ E)
    (hcanon : 2 ^ 52 ≤ |m| ∨ E = -1074) :
    ndbl (specSigRound x 17) = x := by
  have hxpos : (0 : ℚ) < |x| := abs_pos.mpr hx0
  have hpowE : (0 : ℚ) < (2 : ℚ) ^ E := by positivity
  have hlog_le : (10 : ℚ) ^ Int.log 10 |x| ≤ |x| :=
    Int.zpow_log_le_self (by norm_num) hxpos
  have habsx : |x| = |(m : ℚ)| * 2 ^ E := by
    rw [hx, abs_mul, abs_of_pos hpowE]
  have hround := abs_specSigRound_sub_le x 17
  have hulp : (10 : ℚ) ^ (Int.log 10 |x| - (17 : ℤ) + 1) ≤
      |(m : ℚ)| * 2 ^ E / 10 ^ 16 := by
    have hsplit : (10 : ℚ) ^ (Int.log 10 |x| - (17 : ℤ) + 1) =
        10 ^ Int.log 10 |x| / 10 ^ (16 : ℕ) := by
      rw [eq_div_iff (by norm_num : (10 : ℚ) ^ (16 : ℕ) ≠ 0),
        show ((10 : ℚ) ^ (16 : ℕ)) = (10 : ℚ) ^ ((16 : ℕ) : ℤ) from
          (zpow_natCast 10 16).symm,
        ← zpow_add₀ (by norm_num : (10 : ℚ) ≠ 0)]
      congr 1
      push_cast
      ring
    rw [hsplit, ← habsx]
    gcongr
  apply ndbl_eq_of_strict (specSigRound x 17) x ⟨m, E, hx, hm, hE⟩
  intro y hy hne
  have hsep := double_sep m E hm hE hcanon y hy (by rw [← hx]; exact hne)
  rw [← hx] at hsep
  have htri : |y - x| - |x - specSigRound x 17| ≤ |y - specSigRound x 17| := by
    have h1 : |y - x| ≤ |y - specSigRound x 17| + |specSigRound x 17 - x| := by
      calc |y - x| = |(y - specSigRound x 17) + (specSigRound x 17 - x)| := by
            congr 1
            ring
        _ ≤ _ := abs_add _ _
    have h2 : |specSigRound x 17 - x| = |x - specSigRound x 17| := abs_sub_comm _ _
    linarith
  have hxv : |x - specSigRound x 17| ≤
      1 / 2 * 10 ^ (Int.log 10 |x| - (17 : ℤ) + 1) := by
    rw [abs_sub_comm]
    exact hround
  calc |x - specSigRound x 17| ≤ 1 / 2 * 10 ^ (Int.log 10 |x| - (17 : ℤ) + 1) := hxv
    _ ≤ 1 / 2 * (|(m : ℚ)| * 2 ^ E / 10 ^ 16) := by linarith
    _ < |y - x| - 1 / 2 * (|(m : ℚ)| * 2 ^ E / 10 ^ 16) := by
        linarith
    _ ≤ |y - x| - |x - specSigRound x 17| := by
        have : |x - specSigRound x 17| ≤ 1 / 2 * (|(m : ℚ)| * 2 ^ E / 10 ^ 16) := by
          linarith
        linarith
    _ ≤ |y - specSigRound x 17| := htri

/-- C5: rounding to 17 significant figures is the identity on doubles.  For
a finite nonzero double `x` (exact decimal expansion `r`, canonical binary
representation `m · 2^E`), parsing `round_compact(x, 17)` with `float` gives
back exactly `x`; for `x = 0` it gives exactly `0`. -/
theorem claim_C5 :
    (∀ (r : DecRep) (m E : ℤ), r.Valid → digitsToNat r.digits ≠ 0 →
      r.value = (m : ℚ) * 2 ^ E → |m| < 2 ^ 53 → -1074 ≤ E →
      (2 ^ 52 ≤ |m| ∨ E = -1074) →
      asFloat (roundCompactN r 17) = r.value) ∧
    (∀ r : DecRep, digitsToNat r.digits = 0 → asFloat (roundCompactN r 17) = 0) := by
  constructor
  · intro r m E hv hnz hx hm hE hcanon
    have hx0 : r.value ≠ 0 := by
      intro hc
      exact hnz (by
        have := hc
        rw [DecRep.value] at this
        by_cases hb : r.neg
        · rw [if_pos hb] at this
          have h10 : ((10 : ℚ) ^ r.exp) ≠ 0 := by positivity
          have := mul_eq_zero.mp this
          rcases this with h | h
          · have := mul_eq_zero.mp h
            rcases this with h2 | h2
            · norm_num at h2
            · exact_mod_cast h2
          · exact absurd h h10
        · rw [if_neg hb] at this
          have h10 : ((10 : ℚ) ^ r.exp) ≠ 0 := by positivity
          have := mul_eq_zero.mp this
          rcases this with h | h
          · have := mul_eq_zero.mp h
            rcases this with h2 | h2
            · norm_num at h2
            · exact_mod_cast h2
          · exact absurd h h10)
    have hdec := decodeDec_roundCompactN r hv 17 (by norm_num) (by norm_num) hnz
    rw [asFloat, hdec]
    show ndbl (specSigRound r.value 17) = r.value
    exact ndbl_specSigRound17 r.value m E hx hx0 hm hE hcanon
  · intro r h0
    have h17 : ¬ ((17 : ℕ) = 0) := by norm_num
    have h171 : ¬ (min (17 : ℕ) 17 = 1) := by norm_num
    simp only [roundCompactN, if_neg h17, if_pos h0, min_self, if_neg h171]
    have hdp : decodeParts ('0' :: '.' :: List.replicate (17 - 1) '0') =
        some ⟨false, [0], List.replicate 16 0, false, []⟩ := by decide
    have hd0 : digitsToNat (0 :: List.replicate 16 0) = 0 := by decide
    rw [asFloat, decodeDec, if_neg (by norm_num : ¬ (17 : ℕ) = 1), hdp]
    show ndbl (interpParts ⟨false, [0], List.replicate 16 0, false, []⟩) = 0
    have hval : interpParts ⟨false, [0], List.replicate 16 0, false, []⟩ = 0 := by
      rw [interpParts]
      norm_num [hd0]
    rw [hval, ndbl_zero]

/-- Witness for C5 at `x = 3` (canonically `6755399441055744 · 2^(-51)`). -/
theorem claim_C5_witness :
    asFloat (roundCompactN ⟨false, [3], 0⟩ 17) = (⟨false, [3], 0⟩ : DecRep).value := by
  apply claim_C5.1 ⟨false, [3], 0⟩ 6755399441055744 (-51) (by decide) (by decide)
  · rw [DecRep.value]
    norm_num [digitsToNat]
  · decide
  · decide
  · left
    decide

/- ### Claim C8: candidate selection -/

theorem e_not_mem_composeNumber (s : ℤ) (mds : List ℕ) (dp : ℕ)
    (hmds : ∀ d ∈ mds, d < 10) : 'e' ∉ composeNumber s mds dp 0 := by
  rw [composeNumber, if_neg (by norm_num : ¬ (0 : ℤ) ≠ 0)]
  intro hmem
  rw [List.append_nil] at hmem
  rcases List.mem_append.mp hmem with h | h
  · by_cases hs : s = -1
    · rw [if_pos hs] at h
      rcases List.mem_singleton.mp h with h2
      exact absurd h2.symm (by decide)
    · rw [if_neg hs] at h
      exact absurd h (List.not_mem_nil 'e')
  · by_cases hdp : dp < mds.length
    · rw [if_pos hdp] at h
      rcases List.mem_append.mp h with h2 | h2
      · obtain ⟨d, hd, hdc⟩ := List.mem_map.mp h2
        exact digitChar_ne d (hmds d (List.mem_of_mem_take hd)) 'e' digitOfChar_e hdc
      · rcases List.mem_cons.mp h2 with h3 | h3
        · exact absurd h3.symm (by decide)
        · obtain ⟨d, hd, hdc⟩ := List.mem_map.mp h3
          exact digitChar_ne d (hmds d (List.mem_of_mem_drop hd)) 'e' digitOfChar_e hdc
    · rw [if_neg hdp] at h
      obtain ⟨d, hd, hdc⟩ := List.mem_map.mp h
      exact digitChar_ne d (hmds d (List.mem_of_mem_take hd)) 'e' digitOfChar_e hdc

/-- C8 (amended): the returned string is the shorter of the two candidates,
and on equal length the SECOND candidate (the plain-decimal attempt) is
returned; the second candidate is free of the exponent marker whenever it
differs from the first.  (The original claim — a tie always yields a string
without an exponent marker — fails when no exponent-removal rewrite applies
and the two candidates coincide; see the counterexample.) -/
theorem claim_C8_amended :
    (∀ (r : DecRep) (n : ℕ), 1 ≤ n → n ≤ 17 → digitsToNat r.digits ≠ 0 →
      roundCompactN r n =
        (if (roundCompactCandidates r n).1.length <
            (roundCompactCandidates r n).2.length
         then (roundCompactCandidates r n).1
         else (roundCompactCandidates r n).2)) ∧
    (∀ (r : DecRep) (n : ℕ), 1 ≤ n →
      (roundCompactCandidates r n).2 ≠ (roundCompactCandidates r n).1 →
      'e' ∉ (roundCompactCandidates r n).2) := by
  constructor
  · intro r n hn hn17 hnz
    have hn0 : ¬ (n = 0) := by omega
    have hmin : min n 17 = n := by omega
    simp only [roundCompactN, if_neg hn0, hmin, if_neg hnz]
  · intro r n hn hne
    rcases hout : roundStandardFormComponents r n with ⟨s, m, E⟩
    have hdig : ∀ d ∈ natDigitsBE m, d < 10 := natDigitsBE_lt m
    rw [roundCompactCandidates_eq r n hn s m E hout] at hne ⊢
    by_cases h1 : 0 < E ∧ E < (n : ℤ)
    · rw [if_pos h1]
      exact e_not_mem_composeNumber s (natDigitsBE m) (1 + E.toNat) hdig
    · by_cases h2 : (n : ℤ) ≤ E ∧ E ≤ (n : ℤ) + ((intChars E).length : ℤ) + 6
      · rw [if_neg h1, if_pos h2]
        apply e_not_mem_composeNumber
        intro d hd
        rcases List.mem_append.mp hd with h | h
        · exact hdig d h
        · rw [List.eq_of_mem_replicate h]
          omega
      · by_cases h3 : -6 - ((intChars E).length : ℤ) ≤ E ∧ E < 0
        · rw [if_neg h1, if_neg h2, if_pos h3]
          apply e_not_mem_composeNumber
          intro d hd
          rcases List.mem_append.mp hd with h | h
          · rw [List.eq_of_mem_replicate h]
            omega
          · exact hdig d h
        · rw [if_neg h1, if_neg h2, if_neg h3] at hne
          exact absurd rfl hne

/-- Counterexample for C8 as stated: for `x = 1e10` at one significant
digit the two candidates have equal length (both are "1e10"), and the
returned string carries the exponent marker. -/
theorem claim_C8_counterexample :
    (roundCompactCandidates ⟨false, [1, 0, 0, 0, 0, 0, 0, 0, 0, 0, 0], 0⟩ 1).1.length =
      (roundCompactCandidates ⟨false, [1, 0, 0, 0, 0, 0, 0, 0, 0, 0, 0], 0⟩ 1).2.length ∧
    roundCompactN ⟨false, [1, 0, 0, 0, 0, 0, 0, 0, 0, 0, 0], 0⟩ 1 = ['1', 'e', '1', '0'] ∧
    'e' ∈ roundCompactN ⟨false, [1, 0, 0, 0, 0, 0, 0, 0, 0, 0, 0], 0⟩ 1 := by
  refine ⟨by decide, by decide, by decide⟩

/-- Witness for the amended C8 at a concrete input. -/
theorem claim_C8_witness :
    roundCompactN ⟨false, [1, 2, 5], -1⟩ 2 =
      (if (roundCompactCandidates ⟨false, [1, 2, 5], -1⟩ 2).1.length <
          (roundCompactCandidates ⟨false, [1, 2, 5], -1⟩ 2).2.length
       then (roundCompactCandidates ⟨false, [1, 2, 5], -1⟩ 2).1
       else (roundCompactCandidates ⟨false, [1, 2, 5], -1⟩ 2).2) :=
  claim_C8_amended.1 ⟨false, [1, 2, 5], -1⟩ 2 (by decide) (by decide) (by decide)

/- ### round_compact_in_interval (src/tools/round_compact.py, lines 180-194) -/

/-- One iteration of the `for sig_figs in range(17, -1, -1)` loop: keep the
rounding when it stays in `[a, b]` and strictly shortens the best string. -/
def rciiStep (r : DecRep) (a b : ℚ) (best : List Char) (sigFigs : ℕ) : List Char :=
  if a ≤ asFloat (roundCompactN r sigFigs) ∧ asFloat (roundCompactN r sigFigs) ≤ b ∧
      (roundCompactN r sigFigs).length < best.length
  then roundCompactN r sigFigs else best

/-- Embedding of `round_compact_in_interval(x, a, b)`: `r` is the exact
decimal expansion of the double `x` and `s0` is `str(x)` (so
`asFloat s0 = r.value` for genuine inputs).  Raises `ValueError` exactly
when `a > x` or `x > b`. -/
def roundCompactInInterval (r : DecRep) (s0 : List Char) (a b : ℚ) :
    Except String (List Char) :=
  if a > r.value ∨ r.value > b then
    Except.error "Invalid parameters: a<=x<=b is not satisfied."
  else Except.ok (((List.range 18).reverse).foldl (rciiStep r a b) s0)

theorem rcii_fold_in (r : DecRep) (a b : ℚ) (l : List ℕ) :
    ∀ best : List Char, a ≤ asFloat best → asFloat best ≤ b →
      a ≤ asFloat (l.foldl (rciiStep r a b) best) ∧
        asFloat (l.foldl (rciiStep r a b) best) ≤ b := by
  induction l with
  | nil =>
    intro best h1 h2
    exact ⟨h1, h2⟩
  | cons k t ih =>
    intro best h1 h2
    rw [List.foldl_cons, rciiStep]
    by_cases hc : a ≤ asFloat (roundCompactN r k) ∧ asFloat (roundCompactN r k) ≤ b ∧
        (roundCompactN r k).length < best.length
    · rw [if_pos hc]
      exact ih _ hc.1 hc.2.1
    · rw [if_neg hc]
      exact ih best h1 h2

theorem rcii_fold_skip (r : DecRep) (a b : ℚ) (l : List ℕ) (s0 : List Char)
    (h : ∀ k ∈ l, ¬(a ≤ asFloat (roundCompactN r k) ∧
      asFloat (roundCompactN r k) ≤ b ∧ (roundCompactN r k).length < s0.length)) :
    l.foldl (rciiStep r a b) s0 = s0 := by
  induction l with
  | nil => rfl
  | cons k t ih =>
    rw [List.foldl_cons, rciiStep, if_neg (h k (List.mem_cons_self k t))]
    exact ih fun j hj => h j (List.mem_cons_of_mem k hj)

theorem rcii_fold_pred (r : DecRep) (a b : ℚ) (P : List Char → Prop) (l : List ℕ) :
    ∀ best : List Char, P best → (∀ k ∈ l, P (roundCompactN r k)) →
      P (l.foldl (rciiStep r a b) best) := by
  induction l with
  | nil =>
    intro best hb _
    exact hb
  | cons k t ih =>
    intro best hb hc
    rw [List.foldl_cons, rciiStep]
    by_cases hcond : a ≤ asFloat (roundCompactN r k) ∧ asFloat (roundCompactN r k) ≤ b ∧
        (roundCompactN r k).length < best.length
    · rw [if_pos hcond]
      exact ih _ (hc k (List.mem_cons_self k t)) fun j hj => hc j (List.mem_cons_of_mem k hj)
    · rw [if_neg hcond]
      exact ih best hb fun j hj => hc j (List.mem_cons_of_mem k hj)

/- ### Decoding the zero strings and simple literals -/

theorem decodeDec_zero1 : decodeDec ['0'] = some 0 := by
  rw [decodeDec, (by decide : decodeParts ['0'] =
    some ⟨false, [0], [], false, []⟩)]
  simp only [Option.map_some']
  rw [interpParts]
  norm_num [digitsToNat]

theorem decodeDec_five : decodeDec ['5'] = some 5 := by
  rw [decodeDec, (by decide : decodeParts ['5'] =
    some ⟨false, [5], [], false, []⟩)]
  simp only [Option.map_some']
  rw [interpParts]
  norm_num [digitsToNat]

theorem asFloat_zero1 : asFloat ['0'] = 0 := by
  rw [asFloat, decodeDec_zero1]
  exact ndbl_zero

theorem asFloat_five : asFloat ['5'] = 5 := by
  rw [asFloat, decodeDec_five]
  exact ndbl_fixed 5 ⟨5, 0, by norm_num, by decide, by norm_num⟩

theorem zeroDot_eq_composeNumber (j : ℕ) (hj : 1 ≤ j) :
    '0' :: '.' :: List.replicate j '0' = composeNumber 1 (0 :: List.replicate j 0) 1 0 := by
  rw [composeNumber, if_neg (by norm_num : ¬ (1 : ℤ) = -1),
    if_pos (by simp only [List.length_cons, List.length_replicate]; omega :
      1 < (0 :: List.replicate j 0).length),
    if_neg (by norm_num : ¬ (0 : ℤ) ≠ 0)]
  simp [digitChars, List.map_replicate]
  constructor
  · decide
  · right
    rfl

theorem decodeDec_zeroDot (j : ℕ) (hj : 1 ≤ j) :
    decodeDec ('0' :: '.' :: List.replicate j '0') = some 0 := by
  rw [zeroDot_eq_composeNumber j hj,
    decodeDec_composeNumber 1 (0 :: List.replicate j 0) 1 0
      (by
        intro d hd
        rcases List.mem_cons.mp hd with h | h
        · omega
        · rw [List.eq_of_mem_replicate h]
          omega)
      le_rfl (by simp)]
  have h0 : digitsToNat (0 :: List.replicate j 0) = 0 := by
    rw [show (0 : ℕ) :: List.replicate j 0 = List.replicate (j + 1) 0 from
      (List.replicate_succ 0 j).symm ▸ rfl]
    exact digitsToNat_replicate_zero (j + 1)
  rw [h0]
  norm_num

theorem asFloat_roundCompactN_zero (r : DecRep) (h0 : digitsToNat r.digits = 0)
    (k : ℕ) : asFloat (roundCompactN r k) = 0 := by
  by_cases hk : k = 0
  · rw [hk, roundCompactN, if_pos rfl]
    exact asFloat_zero1
  · rw [roundCompactN, if_neg hk]
    simp only [if_pos h0]
    by_cases h1 : min k 17 = 1
    · rw [if_pos h1]
      exact asFloat_zero1
    · rw [if_neg h1]
      rw [asFloat, decodeDec_zeroDot (min k 17 - 1) (by omega)]
      exact ndbl_zero

theorem composeNumber_ne_nil (s : ℤ) (mds : List ℕ) (dp : ℕ) (ex : ℤ)
    (hmds : mds ≠ []) (hdp : 1 ≤ dp) : composeNumber s mds dp ex ≠ [] := by
  intro h
  have hlen := congrArg List.length h
  rw [composeNumber] at hlen
  simp only [List.length_append, List.length_nil] at hlen
  have hm : 1 ≤ mds.length := by
    cases mds with
    | nil => exact absurd rfl hmds
    | cons a t => simp
  by_cases hlt : dp < mds.length
  · rw [if_pos hlt] at hlen
    simp only [List.length_append, List.length_cons, digitChars, List.length_map,
      List.length_take, List.length_drop] at hlen
    omega
  · rw [if_neg hlt] at hlen
    simp only [digitChars, List.length_map, List.length_take] at hlen
    omega

theorem roundCompactN_ne_nil (r : DecRep) (hv : r.Valid) (k : ℕ) :
    roundCompactN r k ≠ [] := by
  by_cases hk : k = 0
  · rw [hk, roundCompactN, if_pos rfl]
    exact List.cons_ne_nil '0' []
  · rw [roundCompactN, if_neg hk]
    by_cases h0 : digitsToNat r.digits = 0
    · simp only [if_pos h0]
      by_cases h1 : min k 17 = 1
      · rw [if_pos h1]
        exact List.cons_ne_nil '0' []
      · rw [if_neg h1]
        exact List.cons_ne_nil '0' _
    · simp only [if_neg h0]
      have hn : 1 ≤ min k 17 := by omega
      rcases hout : roundStandardFormComponents r (min k 17) with ⟨s, m, E⟩
      obtain ⟨hs, hm1, hm2, hval⟩ :=
        roundStandardFormComponents_correct r hv (min k 17) hn h0 s m E hout
      have hm0 : m ≠ 0 := by
        have hp : 0 < 10 ^ (min k 17 - 1) := pow_pos (by omega) (min k 17 - 1)
        omega
      have hne1 : natDigitsBE m ≠ [] := natDigitsBE_ne_nil m hm0
      rw [roundCompactCandidates_eq r (min k 17) hn s m E hout]
      by_cases hL : (composeNumber s (natDigitsBE m) 1 E).length <
          (if 0 < E ∧ E < ((min k 17 : ℕ) : ℤ) then
            composeNumber s (natDigitsBE m) (1 + E.toNat) 0
          else if ((min k 17 : ℕ) : ℤ) ≤ E ∧
              E ≤ ((min k 17 : ℕ) : ℤ) + ((intChars E).length : ℤ) + 6 then
            composeNumber s (natDigitsBE m ++
              List.replicate (E.toNat - min k 17 + 1) 0) (1 + E.toNat) 0
          else if -6 - ((intChars E).length : ℤ) ≤ E ∧ E < 0 then
            composeNumber s (List.replicate (-E).toNat 0 ++ natDigitsBE m) 1 0
          else composeNumber s (natDigitsBE m) 1 E).length
      · rw [if_pos hL]
        exact composeNumber_ne_nil s (natDigitsBE m) 1 E hne1 le_rfl
      · rw [if_neg hL]
        by_cases hb1 : 0 < E ∧ E < ((min k 17 : ℕ) : ℤ)
        · rw [if_pos hb1]
          exact composeNumber_ne_nil s (natDigitsBE m) (1 + E.toNat) 0 hne1 (by omega)
        · rw [if_neg hb1]
          by_cases hb2 : ((min k 17 : ℕ) : ℤ) ≤ E ∧
              E ≤ ((min k 17 : ℕ) : ℤ) + ((intChars E).length : ℤ) + 6
          · rw [if_pos hb2]
            apply composeNumber_ne_nil _ _ _ _ _ (by omega)
            intro hnil
            exact hne1 (List.append_eq_nil.mp hnil).1
          · rw [if_neg hb2]
            by_cases hb3 : -6 - ((intChars E).length : ℤ) ≤ E ∧ E < 0
            · rw [if_pos hb3]
              apply composeNumber_ne_nil _ _ _ _ _ le_rfl
              intro hnil
              exact hne1 (List.append_eq_nil.mp hnil).2
            · rw [if_neg hb3]
              exact composeNumber_ne_nil s (natDigitsBE m) 1 E hne1 le_rfl

/-- C2: for `a ≤ x ≤ b` the interval rounding returns a string whose float
value stays in `[a, b]`; and when no rounding of `x` to 0..17 significant
figures both lies in `[a, b]` and is strictly shorter than the default
representation `s0` of `x`, the function returns `s0` itself (value `x`,
zero digit savings). -/
theorem claim_C2 :
    (∀ (r : DecRep) (s0 : List Char) (a b : ℚ),
      asFloat s0 = r.value → a ≤ r.value → r.value ≤ b →
      ∀ out, roundCompactInInterval r s0 a b = Except.ok out →
        a ≤ asFloat out ∧ asFloat out ≤ b) ∧
    (∀ (r : DecRep) (s0 : List Char) (a b : ℚ),
      asFloat s0 = r.value → a ≤ r.value → r.value ≤ b →
      (∀ k : ℕ, k ≤ 17 →
        ¬(a ≤ asFloat (roundCompactN r k) ∧ asFloat (roundCompactN r k) ≤ b ∧
          (roundCompactN r k).length < s0.length)) →
      roundCompactInInterval r s0 a b = Except.ok s0) := by
  constructor
  · intro r s0 a b hs0 h1 h2 out hout
    have hno : ¬ (a > r.value ∨ r.value > b) := by
      push_neg
      exact ⟨h1, h2⟩
    rw [roundCompactInInterval, if_neg hno] at hout
    have heq := Except.ok.inj hout
    rw [← heq]
    exact rcii_fold_in r a b ((List.range 18).reverse) s0
      (by rw [hs0]; exact h1) (by rw [hs0]; exact h2)
  · intro r s0 a b hs0 h1 h2 hnone
    have hno : ¬ (a > r.value ∨ r.value > b) := by
      push_neg
      exact ⟨h1, h2⟩
    rw [roundCompactInInterval, if_neg hno]
    congr 1
    apply rcii_fold_skip
    intro k hk
    apply hnone
    rw [List.mem_reverse, List.mem_range] at hk
    omega

/-- Witness for C2 at `x = 5`, `s0 = "5"`, `[a, b] = [5, 5]`: the result is
`s0` itself and its value stays in the interval. -/
theorem claim_C2_witness :
    roundCompactInInterval ⟨false, [5], 0⟩ ['5'] 5 5 = Except.ok ['5'] := by
  have hval : (⟨false, [5], 0⟩ : DecRep).value = 5 := by
    rw [DecRep.value]
    norm_num [digitsToNat]
  apply claim_C2.2 ⟨false, [5], 0⟩ ['5'] 5 5 (by rw [asFloat_five, hval])
    (by rw [hval]) (by rw [hval])
  intro k hk hc
  have hlen : ∀ j : ℕ, j < 18 → ¬ ((roundCompactN ⟨false, [5], 0⟩ j).length < 1) := by
    decide
  exact hlen k (by omega) (by simpa using hc.2.2)

/-- C4 (amended): if `x = 0` the result's float value is exactly zero; and
whenever `0` lies in `[a, b]` the result is a single-character string (for a
valid nonempty input representation).  (The original claim — the function
returns exact zero whenever `0 ∈ [a, b]` — is false: the code has no such
special case and happily returns a nonzero one-digit rounding; see the
counterexample.) -/
theorem claim_C4_amended :
    (∀ (r : DecRep) (s0 : List Char) (a b : ℚ),
      asFloat s0 = r.value → a ≤ r.value → r.value ≤ b → r.value = 0 →
      ∀ out, roundCompactInInterval r s0 a b = Except.ok out →
        asFloat out = 0) ∧
    (∀ (r : DecRep) (s0 : List Char) (a b : ℚ),
      asFloat s0 = r.value → a ≤ r.value → r.value ≤ b → r.Valid → s0 ≠ [] →
      a ≤ 0 → (0 : ℚ) ≤ b →
      ∀ out, roundCompactInInterval r s0 a b = Except.ok out →
        out.length = 1) := by
  constructor
  · intro r s0 a b hs0 h1 h2 hx0 out hout
    have hno : ¬ (a > r.value ∨ r.value > b) := by
      push_neg
      exact ⟨h1, h2⟩
    rw [roundCompactInInterval, if_neg hno] at hout
    rw [← Except.ok.inj hout]
    have hdig0 : digitsToNat r.digits = 0 := by
      by_contra hd
      have : r.value ≠ 0 := by
        rw [DecRep.value]
        intro hc
        rcases mul_eq_zero.mp hc with h | h
        · rcases mul_eq_zero.mp h with h2 | h2
          · by_cases hb : r.neg
            · rw [if_pos hb] at h2
              norm_num at h2
            · rw [if_neg hb] at h2
              norm_num at h2
          · exact hd (by exact_mod_cast h2)
        · have : ((10 : ℚ) ^ r.exp) ≠ 0 := by positivity
          exact this h
      exact this hx0
    apply rcii_fold_pred r a b (fun s => asFloat s = 0)
    · rw [hs0, hx0]
    · intro k _
      exact asFloat_roundCompactN_zero r hdig0 k
  · intro r s0 a b hs0 h1 h2 hv hs0ne ha hb out hout
    have hno : ¬ (a > r.value ∨ r.value > b) := by
      push_neg
      exact ⟨h1, h2⟩
    rw [roundCompactInInterval, if_neg hno] at hout
    rw [← Except.ok.inj hout]
    have hsplit : (List.range 18).reverse = (List.range' 1 17).reverse ++ [0] := by
      decide
    rw [hsplit, List.foldl_append, List.foldl_cons, List.foldl_nil]
    have hBne : List.foldl (rciiStep r a b) s0 (List.range' 1 17).reverse ≠ [] := by
      apply rcii_fold_pred r a b (fun s => s ≠ []) _ s0 hs0ne
      intro k _
      exact roundCompactN_ne_nil r hv k
    rw [rciiStep]
    have hz : roundCompactN r 0 = ['0'] := rfl
    rw [hz]
    by_cases hBlen : (['0'] : List Char).length <
        (List.foldl (rciiStep r a b) s0 (List.range' 1 17).reverse).length
    · rw [if_pos ⟨by rw [asFloat_zero1]; exact ha, by rw [asFloat_zero1]; exact hb, hBlen⟩]
      rfl
    · rw [if_neg (fun hc => hBlen hc.2.2)]
      have hpos : 0 < (List.foldl (rciiStep r a b) s0 (List.range' 1 17).reverse).length :=
        List.length_pos.mpr hBne
      simp only [List.length_singleton] at hBlen
      omega

/-- Counterexample for C4 as stated: `x = 5`, interval `[-1, 6]` contains
zero, yet the result is the string "5" with float value `5 ≠ 0`. -/
theorem claim_C4_counterexample :
    (⟨false, [5], 0⟩ : DecRep).value = 5 ∧
    asFloat ['5'] = (⟨false, [5], 0⟩ : DecRep).value ∧
    (-1 : ℚ) ≤ (⟨false, [5], 0⟩ : DecRep).value ∧
    (⟨false, [5], 0⟩ : DecRep).value ≤ 6 ∧
    (-1 : ℚ) ≤ 0 ∧ (0 : ℚ) ≤ 6 ∧
    roundCompactInInterval ⟨false, [5], 0⟩ ['5'] (-1) 6 = Except.ok ['5'] ∧
    asFloat ['5'] ≠ 0 := by
  have hval : (⟨false, [5], 0⟩ : DecRep).value = 5 := by
    rw [DecRep.value]
    norm_num [digitsToNat]
  have hrun : roundCompactInInterval ⟨false, [5], 0⟩ ['5'] (-1) 6 = Except.ok ['5'] := by
    rw [roundCompactInInterval, if_neg (by rw [hval]; norm_num)]
    congr 1
    apply rcii_fold_skip
    intro k hk hc
    have hlen : ∀ j : ℕ, j < 18 →
        ¬ ((roundCompactN ⟨false, [5], 0⟩ j).length < 1) := by decide
    rw [List.mem_reverse, List.mem_range] at hk
    exact hlen k hk (by simpa using hc.2.2)
  exact ⟨hval, by rw [asFloat_five, hval], by rw [hval]; norm_num, by rw [hval]; norm_num,
    by norm_num, by norm_num, hrun, by rw [asFloat_five]; norm_num⟩

/-- Witness for the amended C4: the zero input with representation "0". -/
theorem claim_C4_witness :
    roundCompactInInterval ⟨false, [0], 0⟩ ['0'] (-1) 1 = Except.ok ['0'] ∧
    asFloat ['0'] = 0 := by
  have hval : (⟨false, [0], 0⟩ : DecRep).value = 0 := by
    rw [DecRep.value]
    norm_num [digitsToNat]
  have hrun : roundCompactInInterval ⟨false, [0], 0⟩ ['0'] (-1) 1 = Except.ok ['0'] := by
    rw [roundCompactInInterval, if_neg (by rw [hval]; norm_num)]
    congr 1
    apply rcii_fold_skip
    intro k hk hc
    have hlen : ∀ j : ℕ, j < 18 →
        ¬ ((roundCompactN ⟨false, [0], 0⟩ j).length < 1) := by decide
    rw [List.mem_reverse, List.mem_range] at hk
    exact hlen k hk (by simpa using hc.2.2)
  refine ⟨hrun, ?_⟩
  exact claim_C4_amended.1 ⟨false, [0], 0⟩ ['0'] (-1) 1
    (by rw [asFloat_zero1, hval]) (by rw [hval]; norm_num) (by rw [hval]; norm_num)
    hval ['0'] hrun

/-- C7: contract violations fail fast and nothing else raises.
`round_compact_in_interval` errors exactly when `a > x` or `x > b`;
`round_compact` errors exactly when `sig_figs < 0`, returns the zero literal
"0" at `sig_figs = 0`, and returns normally for every `sig_figs ≥ 0`. -/
theorem claim_C7 :
    (∀ (r : DecRep) (s0 : List Char) (a b : ℚ),
      (∃ e, roundCompactInInterval r s0 a b = Except.error e) ↔
        (a > r.value ∨ r.value > b)) ∧
    (∀ (r : DecRep) (n : ℤ),
      (∃ e, roundCompact r n = Except.error e) ↔ n < 0) ∧
    (∀ r : DecRep, roundCompact r 0 = Except.ok ffZeroChars) ∧
    (∀ (r : DecRep) (n : ℤ), 0 ≤ n → ∃ out, roundCompact r n = Except.ok out) := by
  refine ⟨?_, ?_, ?_, ?_⟩
  · intro r s0 a b
    constructor
    · rintro ⟨e, he⟩
      by_contra hno
      rw [roundCompactInInterval, if_neg hno] at he
      exact Except.noConfusion he
    · intro hcond
      exact ⟨_, by rw [roundCompactInInterval, if_pos hcond]⟩
  · intro r n
    constructor
    · rintro ⟨e, he⟩
      by_contra hno
      rw [roundCompact, if_neg hno] at he
      exact Except.noConfusion he
    · intro hcond
      exact ⟨_, by rw [roundCompact, if_pos hcond]⟩
  · intro r
    rw [roundCompact, if_neg (by norm_num : ¬ (0 : ℤ) < 0)]
    rfl
  · intro r n hn
    exact ⟨roundCompactN r n.toNat, by rw [roundCompact, if_neg (not_lt.mpr hn)]⟩

/-- Witness for C7: a negative digit count errors, zero digit count gives
the zero literal. -/
theorem claim_C7_witness :
    (∃ e, roundCompact ⟨false, [5], 0⟩ (-1) = Except.error e) ∧
    roundCompact ⟨false, [5], 0⟩ 0 = Except.ok ffZeroChars :=
  ⟨(claim_C7.2.1 ⟨false, [5], 0⟩ (-1)).mpr (by norm_num),
    claim_C7.2.2.1 ⟨false, [5], 0⟩⟩

/-- A double strictly inside its binade (`2^52 < |m| < 2^53`) is at least a
full ulp `2^E` away from every other representable value. -/
theorem double_gap_inner (m E : ℤ) (hm : |m| < 2 ^ 53) (hm2 : 2 ^ 52 < |m|)
    (hE : -1074 ≤ E) (y : ℚ) (hy : Rd y) (hne : y ≠ (m : ℚ) * 2 ^ E) :
    (2 : ℚ) ^ E ≤ |y - (m : ℚ) * 2 ^ E| := by
  obtain ⟨mp, Ep, hy_eq, hmp, hEp⟩ := hy
  have hpowE : (0 : ℚ) < (2 : ℚ) ^ E := by positivity
  by_cases hEE : E ≤ Ep
  · have hk : y - (m : ℚ) * 2 ^ E =
        ((mp * 2 ^ (Ep - E).toNat - m : ℤ) : ℚ) * 2 ^ E := by
      rw [hy_eq]
      push_cast
      rw [sub_mul, mul_assoc, ← zpow_natCast (2 : ℚ) (Ep - E).toNat,
        ← zpow_add₀ (by norm_num : (2 : ℚ) ≠ 0)]
      congr 3
      omega
    have hk0 : (mp * 2 ^ (Ep - E).toNat - m : ℤ) ≠ 0 := by
      intro hzero
      apply hne
      apply sub_eq_zero.mp
      rw [hk, hzero]
      norm_num
    rw [hk, abs_mul, abs_of_pos hpowE]
    have h1 : (1 : ℚ) ≤ |((mp * 2 ^ (Ep - E).toNat - m : ℤ) : ℚ)| := by
      rw [← Int.cast_abs]
      have hge : (1 : ℤ) ≤ |mp * 2 ^ (Ep - E).toNat - m| := by
        rcases hk0.lt_or_lt with h | h
        · rw [abs_of_neg h]
          omega
        · rw [abs_of_pos h]
          omega
      exact_mod_cast hge
    calc (2 : ℚ) ^ E = 1 * 2 ^ E := (one_mul _).symm
      _ ≤ |((mp * 2 ^ (Ep - E).toNat - m : ℤ) : ℚ)| * 2 ^ E :=
          mul_le_mul_of_nonneg_right h1 hpowE.le
  · push_neg at hEE
    have hm52Q : (2 : ℚ) ^ 52 + 1 ≤ |(m : ℚ)| := by
      rw [← Int.cast_abs]
      have : (2 : ℤ) ^ 52 + 1 ≤ |m| := by omega
      calc ((2 : ℚ)) ^ 52 + 1 = (((2 : ℤ) ^ 52 + 1 : ℤ) : ℚ) := by push_cast; ring
        _ ≤ ((|m| : ℤ) : ℚ) := by exact_mod_cast this
    have hpowE1 : (0 : ℚ) < (2 : ℚ) ^ (E - 1) := by positivity
    have h2E : (2 : ℚ) ^ E = 2 ^ (E - 1) * 2 := by
      rw [← zpow_add_one₀ (by norm_num : (2 : ℚ) ≠ 0) (E - 1)]
      congr 1
      ring
    have hy_ub : |y| ≤ (2 ^ 53 - 1) * 2 ^ (E - 1) := by
      rw [hy_eq, abs_mul, abs_of_pos (by positivity : (0 : ℚ) < (2 : ℚ) ^ Ep)]
      have h1 : |(mp : ℚ)| ≤ 2 ^ 53 - 1 := by
        rw [← Int.cast_abs]
        have hge : |mp| ≤ 2 ^ 53 - 1 := by omega
        calc ((|mp| : ℤ) : ℚ) ≤ ((2 ^ 53 - 1 : ℤ) : ℚ) := by exact_mod_cast hge
          _ = 2 ^ 53 - 1 := by push_cast; ring
      have h2 : (2 : ℚ) ^ Ep ≤ 2 ^ (E - 1) :=
        zpow_le_zpow_right₀ (by norm_num) (by omega)
      exact mul_le_mul h1 h2 (by positivity) (by norm_num)
    have h3 : abs ((m : ℚ) * 2 ^ E) - |y| ≤ abs (y - (m : ℚ) * 2 ^ E) := by
      rw [abs_sub_comm]
      exact abs_sub_abs_le_abs_sub _ _
    have h4 : abs ((m : ℚ) * 2 ^ E) = |(m : ℚ)| * 2 ^ E := by
      rw [abs_mul, abs_of_pos hpowE]
    have h5 : (2 ^ 53 + 2) * 2 ^ (E - 1) ≤ |(m : ℚ)| * 2 ^ E := by
      rw [h2E]
      calc (2 ^ 53 + 2) * 2 ^ (E - 1) = (2 ^ 52 + 1) * (2 ^ (E - 1) * 2) := by ring
        _ ≤ |(m : ℚ)| * (2 ^ (E - 1) * 2) := by
            apply mul_le_mul_of_nonneg_right hm52Q
            positivity
    rw [h4] at h3
    calc (2 : ℚ) ^ E = 2 ^ (E - 1) * 2 := h2E
      _ ≤ 3 * 2 ^ (E - 1) := by linarith [hpowE1]
      _ = ((2 ^ 53 + 2) - (2 ^ 53 - 1)) * 2 ^ (E - 1) := by ring
      _ ≤ |y - (m : ℚ) * 2 ^ E| := by linarith

/-- Certified evaluation of `float`: if a canonical double strictly inside
its binade is within half an ulp of `v`, it is the rounding of `v`. -/
theorem ndbl_eq_of_inner (v : ℚ) (m E : ℤ) (hm : |m| < 2 ^ 53)
    (hm2 : 2 ^ 52 < |m|) (hE : -1074 ≤ E)
    (hclose : 2 * |v - (m : ℚ) * 2 ^ E| < (2 : ℚ) ^ E) :
    ndbl v = (m : ℚ) * 2 ^ E := by
  apply ndbl_eq_of_strict v ((m : ℚ) * 2 ^ E) ⟨m, E, rfl, hm, hE⟩
  intro y hy hne
  have hgap := double_gap_inner m E hm hm2 hE y hy hne
  have htri : |y - (m : ℚ) * 2 ^ E| - |(m : ℚ) * 2 ^ E - v| ≤ |y - v| := by
    have h1 : |y - (m : ℚ) * 2 ^ E| ≤ |y - v| + |v - (m : ℚ) * 2 ^ E| := by
      calc |y - (m : ℚ) * 2 ^ E| = |(y - v) + (v - (m : ℚ) * 2 ^ E)| := by
            congr 1
            ring
        _ ≤ _ := abs_add _ _
    have h2 : |v - (m : ℚ) * 2 ^ E| = |(m : ℚ) * 2 ^ E - v| := abs_sub_comm _ _
    linarith
  have hvx : |(m : ℚ) * 2 ^ E - v| = |v - (m : ℚ) * 2 ^ E| := abs_sub_comm _ _
  rw [hvx] at htri ⊢
  linarith

theorem asFloat_eq_of_inner (s : List Char) (v : ℚ) (m E : ℤ)
    (hdec : decodeDec s = some v) (hm : |m| < 2 ^ 53) (hm2 : 2 ^ 52 < |m|)
    (hE : -1074 ≤ E) (hclose : 2 * |v - (m : ℚ) * 2 ^ E| < (2 : ℚ) ^ E) :
    asFloat s = (m : ℚ) * 2 ^ E := by
  rw [asFloat, hdec]
  exact ndbl_eq_of_inner v m E hm hm2 hE hclose

/- ### The series truncation cores (src/mpp02_truncate.py and
src/vsop87a_truncate.py)

A coefficient arrives as a Python float `x`: we carry its exact decimal
expansion (`rep`, with `rep.value = x`) and its default representation
`str(x)` (`s0`, which parses back to `x`).  Floating-point products in the
error bookkeeping are modelled as exact rational products; the `float(...)`
string round-trips are modelled exactly by `asFloat`. -/

structure CoeffIn where
  rep : DecRep
  s0 : List Char

/-- One iteration of `for sig_figs in range(17, -1, -1)` inside `simplify`:
propose `round_compact(x, sig_figs)`, and accept it when it saves
characters at an error-per-character below the budget. -/
def truncStep (mult mepc : ℚ) (r : DecRep) (cur : List Char) (sigFigs : ℕ) :
    List Char :=
  if 0 < (cur.length : ℤ) - ((roundCompactN r sigFigs).length : ℤ) ∧
      mult * (|r.value - asFloat (roundCompactN r sigFigs)| - |r.value - asFloat cur|) /
        (((cur.length : ℤ) - ((roundCompactN r sigFigs).length : ℤ) : ℤ) : ℚ) < mepc
  then roundCompactN r sigFigs else cur

/-- The whole digit-truncation loop for one coefficient. -/
def truncCoeff (mult mepc : ℚ) (c : CoeffIn) : List Char :=
  ((List.range 18).reverse).foldl (truncStep mult mepc c.rep) c.s0

/-- The "first truncate coefficients" stage of the planetary `simplify`
(src/vsop87a_truncate.py, lines 60-84), with
`error_multipliers = [tma, abs(a)*tma, abs(a)*tma*t_max]`. -/
def vsopTruncStage (a b c : CoeffIn) (tMax : ℚ) (alpha : ℕ) (mepc : ℚ) :
    List (List Char) :=
  List.zipWith (fun m cf => truncCoeff m mepc cf)
    [tMax ^ alpha, |a.rep.value| * tMax ^ alpha, |a.rep.value| * tMax ^ alpha * tMax]
    [a, b, c]

/-- Embedding of the planetary `simplify(a, b, c, alpha, body_name, size)`:
`tMax` and `mepc` stand for the looked-up `ERROR_CONFIGS`/
`MAX_ERROR_MULTIPLIER` constants.  After digit truncation the whole term is
dropped (all three coefficients replaced by the zero literal) when the
error per dropped character stays below the budget. -/
def vsopSimplify (a b c : CoeffIn) (tMax : ℚ) (alpha : ℕ) (mepc : ℚ) :
    List (List Char) :=
  let coeffsTruncated := vsopTruncStage a b c tMax alpha mepc
  let dropCharsSaved : ℤ := 3 + ((coeffsTruncated.map List.length).sum : ℤ)
  let dropErrorAdded := tMax ^ alpha * |a.rep.value|
  if dropErrorAdded / ((dropCharsSaved : ℤ) : ℚ) < mepc then
    [ffZeroChars, ffZeroChars, ffZeroChars]
  else coeffsTruncated

/-- `error_multipliers[k]` of the lunar `simplify`:
`[ntma, abs(a)*ntma*T_MAX^0, ..., abs(a)*ntma*T_MAX^4]` with `T_MAX = 10`. -/
def mppErrMult (ntma aAbs : ℚ) (k : ℕ) : ℚ :=
  if k = 0 then ntma else aAbs * ntma * 10 ^ (k - 1)

/-- The digit-truncation stage of the lunar `simplify`
(src/mpp02_truncate.py, lines 35-58). -/
def mppTruncStage (coeffs : List CoeffIn) (norm : ℚ) (alpha : ℕ) (mepc : ℚ) :
    List (List Char) :=
  let ntma := norm * (10 : ℚ) ^ alpha
  let a := coeffs.head?.elim 0 fun c => c.rep.value
  coeffs.enum.map fun kc => truncCoeff (mppErrMult ntma |a| kc.1) mepc kc.2

/-- Embedding of the lunar `simplify(coeffs, alpha, coord, size)`: `norm`
stands for `COORD_NORMALIZATION[coord]` and `mepc` for
`MAX_ERROR_PER_CHAR[size]`; `T_MAX = 10`.  Drops the whole six-coefficient
term when the total error per dropped character is below the budget. -/
def mppSimplify (coeffs : List CoeffIn) (norm : ℚ) (alpha : ℕ) (mepc : ℚ) :
    List (List Char) :=
  let ntma := norm * (10 : ℚ) ^ alpha
  let a := coeffs.head?.elim 0 fun c => c.rep.value
  let coeffsTruncated := mppTruncStage coeffs norm alpha mepc
  let dropCharsSaved : ℤ := 6 + ((coeffsTruncated.map List.length).sum : ℤ)
  let dropErrorAdded := ntma * |a|
  if dropErrorAdded / ((dropCharsSaved : ℤ) : ℚ) < mepc then
    List.replicate 6 ffZeroChars
  else coeffsTruncated

/-- C6: a term whose amplitude (first coefficient) is exactly zero is fully
dropped under every positive budget: the lunar `simplify` returns six zero
literals, the planetary one three, regardless of the other coefficients. -/
theorem claim_C6 :
    (∀ (coeffs : List CoeffIn) (norm : ℚ) (alpha : ℕ) (mepc : ℚ), 0 < mepc →
      (∀ c0, coeffs.head? = some c0 → c0.rep.value = 0) →
      mppSimplify coeffs norm alpha mepc = List.replicate 6 ffZeroChars) ∧
    (∀ (a b c : CoeffIn) (tMax : ℚ) (alpha : ℕ) (mepc : ℚ), 0 < mepc →
      a.rep.value = 0 →
      vsopSimplify a b c tMax alpha mepc = [ffZeroChars, ffZeroChars, ffZeroChars]) := by
  constructor
  · intro coeffs norm alpha mepc hm h0
    have ha : (coeffs.head?.elim 0 fun c => c.rep.value) = 0 := by
      rcases hh : coeffs.head? with _ | c0
      · rfl
      · simp only [Option.elim]
        exact h0 c0 hh
    rw [mppSimplify]
    simp only [ha, abs_zero, mul_zero, zero_mul, zero_div]
    rw [if_pos hm]
  · intro a b c tMax alpha mepc hm h0
    rw [vsopSimplify]
    simp only [h0, abs_zero, mul_zero, zero_mul, zero_div]
    rw [if_pos hm]

/-- Witness for C6: zero-amplitude terms at concrete inputs. -/
theorem claim_C6_witness :
    mppSimplify [⟨⟨false, [0], 0⟩, ['0']⟩] 1 0 1 = List.replicate 6 ffZeroChars ∧
    vsopSimplify ⟨⟨false, [0], 0⟩, ['0']⟩ ⟨⟨false, [5], 0⟩, ['5']⟩
      ⟨⟨false, [5], 0⟩, ['5']⟩ 10 0 1 = [ffZeroChars, ffZeroChars, ffZeroChars] := by
  have hv0 : (⟨false, [0], 0⟩ : DecRep).value = 0 := by
    rw [DecRep.value]
    norm_num [digitsToNat]
  constructor
  · apply claim_C6.1 _ 1 0 1 (by norm_num)
    intro c0 hc
    injection hc with h
    rw [← h]
    exact hv0
  · exact claim_C6.2 _ _ _ 10 0 1 (by norm_num) hv0

/-- C3 (amended): the drop decision is monotone in the budget ONLY relative
to a fixed outcome of the digit-truncation stage: if two budgets
`m1 ≤ m2` produce the same truncated coefficient strings and the term is
dropped under `m1`, it is also dropped under `m2`.  (Unconditionally the
claim is false: a larger budget truncates more digits, which shrinks
`drop_chars_saved` and can push the drop ratio above the larger budget;
see the counterexample.) -/
theorem claim_C3_amended :
    (∀ (coeffs : List CoeffIn) (norm : ℚ) (alpha : ℕ) (m1 m2 : ℚ), m1 ≤ m2 →
      mppTruncStage coeffs norm alpha m1 = mppTruncStage coeffs norm alpha m2 →
      mppSimplify coeffs norm alpha m1 = List.replicate 6 ffZeroChars →
      mppSimplify coeffs norm alpha m2 = List.replicate 6 ffZeroChars) ∧
    (∀ (a b c : CoeffIn) (tMax : ℚ) (alpha : ℕ) (m1 m2 : ℚ), m1 ≤ m2 →
      vsopTruncStage a b c tMax alpha m1 = vsopTruncStage a b c tMax alpha m2 →
      vsopSimplify a b c tMax alpha m1 = [ffZeroChars, ffZeroChars, ffZeroChars] →
      vsopSimplify a b c tMax alpha m2 = [ffZeroChars, ffZeroChars, ffZeroChars]) := by
  constructor
  · intro coeffs norm alpha m1 m2 h12 hstage h1
    simp only [mppSimplify] at h1 ⊢
    rw [← hstage]
    by_cases hdrop : norm * 10 ^ alpha * |coeffs.head?.elim 0 fun c => c.rep.value| /
        (((6 : ℤ) + (((mppTruncStage coeffs norm alpha m1).map List.length).sum : ℤ) : ℤ) : ℚ)
        < m1
    · rw [if_pos (lt_of_lt_of_le hdrop h12)]
    · rw [if_neg hdrop] at h1
      rw [h1, ite_self]
  · intro a b c tMax alpha m1 m2 h12 hstage h1
    simp only [vsopSimplify] at h1 ⊢
    rw [← hstage]
    by_cases hdrop : tMax ^ alpha * |a.rep.value| /
        (((3 : ℤ) + (((vsopTruncStage a b c tMax alpha m1).map List.length).sum : ℤ) : ℤ) : ℚ)
        < m1
    · rw [if_pos (lt_of_lt_of_le hdrop h12)]
    · rw [if_neg hdrop] at h1
      rw [h1, ite_self]

theorem truncStep_skip (mult mepc : ℚ) (r : DecRep) (cur : List Char) (k : ℕ)
    (h : ¬ (0 < (cur.length : ℤ) - ((roundCompactN r k).length : ℤ))) :
    truncStep mult mepc r cur k = cur := by
  rw [truncStep, if_neg (fun hc => h hc.1)]

theorem truncFold_skip (mult mepc : ℚ) (r : DecRep) (l : List ℕ) (cur : List Char)
    (h : ∀ k ∈ l, ¬ (0 < (cur.length : ℤ) - ((roundCompactN r k).length : ℤ))) :
    l.foldl (truncStep mult mepc r) cur = cur := by
  induction l with
  | nil => rfl
  | cons k t ih =>
    rw [List.foldl_cons, truncStep_skip mult mepc r cur k (h k (List.mem_cons_self k t))]
    exact ih fun j hj => h j (List.mem_cons_of_mem k hj)

/-- Witness for the amended C3 at the all-zero term: the truncation stages
agree for any two budgets and the drop is monotone. -/
theorem claim_C3_witness :
    vsopSimplify ⟨⟨false, [0], 0⟩, ['0']⟩ ⟨⟨false, [0], 0⟩, ['0']⟩
      ⟨⟨false, [0], 0⟩, ['0']⟩ 10 0 1 = [ffZeroChars, ffZeroChars, ffZeroChars] := by
  have hv0 : (⟨false, [0], 0⟩ : DecRep).value = 0 := by
    rw [DecRep.value]
    norm_num [digitsToNat]
  have hstageZ : ∀ mult mepc : ℚ,
      truncCoeff mult mepc ⟨⟨false, [0], 0⟩, ['0']⟩ = ['0'] := by
    intro mult mepc
    rw [truncCoeff]
    apply truncFold_skip
    intro k hk
    have hall : ∀ j, j < 18 →
        ¬ (0 < ((['0'] : List Char).length : ℤ) -
          ((roundCompactN ⟨false, [0], 0⟩ j).length : ℤ)) := by decide
    rw [List.mem_reverse, List.mem_range] at hk
    exact hall k hk
  have hstage : vsopTruncStage ⟨⟨false, [0], 0⟩, ['0']⟩ ⟨⟨false, [0], 0⟩, ['0']⟩
      ⟨⟨false, [0], 0⟩, ['0']⟩ 10 0 (1 / 2) =
      vsopTruncStage ⟨⟨false, [0], 0⟩, ['0']⟩ ⟨⟨false, [0], 0⟩, ['0']⟩
      ⟨⟨false, [0], 0⟩, ['0']⟩ 10 0 1 := by
    simp only [vsopTruncStage, List.zipWith, hstageZ]
  have hdrop1 : vsopSimplify ⟨⟨false, [0], 0⟩, ['0']⟩ ⟨⟨false, [0], 0⟩, ['0']⟩
      ⟨⟨false, [0], 0⟩, ['0']⟩ 10 0 (1 / 2) = [ffZeroChars, ffZeroChars, ffZeroChars] := by
    simp only [vsopSimplify, hv0, abs_zero, mul_zero, zero_mul, zero_div]
    rw [if_pos (by norm_num : (0 : ℚ) < 1 / 2)]
  exact claim_C3_amended.2 _ _ _ 10 0 (1 / 2) 1 (by norm_num) hstage hdrop1

/- ### Concrete float evaluations for the budget-monotonicity counterexample -/

theorem asFloat_twoFive : asFloat ['2', '.', '5'] = 5 / 2 := by
  rw [asFloat, decodeDec, (by decide : decodeParts ['2', '.', '5'] =
    some ⟨false, [2], [5], false, []⟩)]
  simp only [Option.map_some', Option.getD_some]
  have hv : interpParts ⟨false, [2], [5], false, []⟩ = 5 / 2 := by
    rw [interpParts]
    norm_num [digitsToNat]
  rw [hv]
  exact ndbl_fixed (5 / 2) ⟨5, -1, by norm_num, by decide, by norm_num⟩

theorem asFloat_two : asFloat ['2'] = 2 := by
  rw [asFloat, decodeDec, (by decide : decodeParts ['2'] =
    some ⟨false, [2], [], false, []⟩)]
  simp only [Option.map_some', Option.getD_some]
  have hv : interpParts ⟨false, [2], [], false, []⟩ = 2 := by
    rw [interpParts]
    norm_num [digitsToNat]
  rw [hv]
  exact ndbl_fixed 2 ⟨2, 0, by norm_num, by decide, by norm_num⟩

theorem asFloat_zeroTwoFive : asFloat ['0', '.', '2', '5'] = 1 / 4 := by
  rw [asFloat, decodeDec, (by decide : decodeParts ['0', '.', '2', '5'] =
    some ⟨false, [0], [2, 5], false, []⟩)]
  simp only [Option.map_some', Option.getD_some]
  have hv : interpParts ⟨false, [0], [2, 5], false, []⟩ = 1 / 4 := by
    rw [interpParts]
    norm_num [digitsToNat]
  rw [hv]
  exact ndbl_fixed (1 / 4) ⟨1, -2, by norm_num, by decide, by norm_num⟩

theorem asFloat_zeroFive : asFloat ['0', '.', '5'] = 1 / 2 := by
  rw [asFloat, decodeDec, (by decide : decodeParts ['0', '.', '5'] =
    some ⟨false, [0], [5], false, []⟩)]
  simp only [Option.map_some', Option.getD_some]
  have hv : interpParts ⟨false, [0], [5], false, []⟩ = 1 / 2 := by
    rw [interpParts]
    norm_num [digitsToNat]
  rw [hv]
  exact ndbl_fixed (1 / 2) ⟨1, -1, by norm_num, by decide, by norm_num⟩

/-- `float("0.2")` is the double `0x1.999999999999ap-3`. -/
theorem asFloat_zeroTwo :
    asFloat ['0', '.', '2'] = 7205759403792794 * (2 : ℚ) ^ (-55 : ℤ) := by
  rw [asFloat, decodeDec, (by decide : decodeParts ['0', '.', '2'] =
    some ⟨false, [0], [2], false, []⟩)]
  simp only [Option.map_some', Option.getD_some]
  have hv : interpParts ⟨false, [0], [2], false, []⟩ = 1 / 5 := by
    rw [interpParts]
    norm_num [digitsToNat]
  rw [hv]
  apply ndbl_eq_of_inner (1 / 5) 7205759403792794 (-55) (by decide) (by decide)
    (by norm_num)
  push_cast
  rw [abs_of_neg (by norm_num : (1 : ℚ) / 5 - 7205759403792794 * (2 : ℚ) ^ (-55 : ℤ) < 0)]
  norm_num

theorem truncStep_accept (mult mepc : ℚ) (r : DecRep) (cur prop : List Char)
    (k : ℕ) (hprop : roundCompactN r k = prop)
    (h1 : 0 < (cur.length : ℤ) - (prop.length : ℤ))
    (h2 : mult * (|r.value - asFloat prop| - |r.value - asFloat cur|) /
        (((cur.length : ℤ) - (prop.length : ℤ) : ℤ) : ℚ) < mepc) :
    truncStep mult mepc r cur k = prop := by
  rw [truncStep, hprop, if_pos ⟨h1, h2⟩]

theorem truncStep_reject (mult mepc : ℚ) (r : DecRep) (cur prop : List Char)
    (k : ℕ) (hprop : roundCompactN r k = prop)
    (h2 : ¬ (mult * (|r.value - asFloat prop| - |r.value - asFloat cur|) /
        (((cur.length : ℤ) - (prop.length : ℤ) : ℤ) : ℚ) < mepc)) :
    truncStep mult mepc r cur k = cur := by
  rw [truncStep, hprop, if_neg (fun hc => h2 hc.2)]

theorem value_twoFive : (⟨false, [2, 5], -1⟩ : DecRep).value = 5 / 2 := by
  rw [DecRep.value]
  norm_num [digitsToNat]

theorem value_zeroTwoFive : (⟨false, [2, 5], -2⟩ : DecRep).value = 1 / 4 := by
  rw [DecRep.value]
  norm_num [digitsToNat]

theorem value_zeroFive : (⟨false, [5], -1⟩ : DecRep).value = 1 / 2 := by
  rw [DecRep.value]
  norm_num [digitsToNat]

theorem truncA_small :
    truncCoeff 1 (27 / 128) ⟨⟨false, [2, 5], -1⟩, ['2', '.', '5']⟩ = ['2', '.', '5'] := by
  rw [truncCoeff]
  show ((List.range 18).reverse).foldl (truncStep 1 (27 / 128) ⟨false, [2, 5], -1⟩)
    ['2', '.', '5'] = ['2', '.', '5']
  rw [(by decide : (List.range 18).reverse = (List.range' 2 16).reverse ++ [1, 0]),
    List.foldl_append]
  rw [truncFold_skip 1 (27 / 128) ⟨false, [2, 5], -1⟩ (List.range' 2 16).reverse
    ['2', '.', '5'] (by
      intro k hk
      have hall : ∀ j, j < 18 → 2 ≤ j →
          ¬ (0 < ((['2', '.', '5'] : List Char).length : ℤ) -
            ((roundCompactN ⟨false, [2, 5], -1⟩ j).length : ℤ)) := by decide
      rw [List.mem_reverse, List.mem_range'_1] at hk
      exact hall k (by omega) (by omega))]
  rw [List.foldl_cons,
    truncStep_reject 1 (27 / 128) ⟨false, [2, 5], -1⟩ ['2', '.', '5'] ['2'] 1
      (by decide) (by
        rw [value_twoFive, asFloat_two, asFloat_twoFive, sub_self, abs_zero,
          abs_of_pos (by norm_num : (0 : ℚ) < 5 / 2 - 2)]
        push_cast [List.length_cons, List.length_nil]
        norm_num)]
  rw [List.foldl_cons, List.foldl_nil]
  exact truncStep_reject 1 (27 / 128) ⟨false, [2, 5], -1⟩ ['2', '.', '5'] ['0'] 0
    (by decide) (by
      rw [value_twoFive, asFloat_zero1, asFloat_twoFive, sub_self, abs_zero, sub_zero,
        abs_of_pos (by norm_num : (0 : ℚ) < 5 / 2 - 0)]
      push_cast [List.length_cons, List.length_nil]
      norm_num)

theorem truncB_small :
    truncCoeff (5 / 2) (27 / 128) ⟨⟨false, [2, 5], -2⟩, ['0', '.', '2', '5']⟩ =
      ['0', '.', '2'] := by
  rw [truncCoeff]
  show ((List.range 18).reverse).foldl (truncStep (5 / 2) (27 / 128) ⟨false, [2, 5], -2⟩)
    ['0', '.', '2', '5'] = ['0', '.', '2']
  rw [(by decide : (List.range 18).reverse = (List.range' 2 16).reverse ++ [1, 0]),
    List.foldl_append]
  rw [truncFold_skip (5 / 2) (27 / 128) ⟨false, [2, 5], -2⟩ (List.range' 2 16).reverse
    ['0', '.', '2', '5'] (by
      intro k hk
      have hall : ∀ j, j < 18 → 2 ≤ j →
          ¬ (0 < ((['0', '.', '2', '5'] : List Char).length : ℤ) -
            ((roundCompactN ⟨false, [2, 5], -2⟩ j).length : ℤ)) := by decide
      rw [List.mem_reverse, List.mem_range'_1] at hk
      exact hall k (by omega) (by omega))]
  rw [List.foldl_cons,
    truncStep_accept (5 / 2) (27 / 128) ⟨false, [2, 5], -2⟩ ['0', '.', '2', '5']
      ['0', '.', '2'] 1 (by decide) (by decide) (by
        rw [value_zeroTwoFive, asFloat_zeroTwo, asFloat_zeroTwoFive, sub_self, abs_zero,
          sub_zero, abs_of_pos
            (by norm_num : (0 : ℚ) < 1 / 4 - 7205759403792794 * (2 : ℚ) ^ (-55 : ℤ))]
        push_cast [List.length_cons, List.length_nil]
        norm_num)]
  rw [List.foldl_cons, List.foldl_nil]
  exact truncStep_reject (5 / 2) (27 / 128) ⟨false, [2, 5], -2⟩ ['0', '.', '2'] ['0'] 0
    (by decide) (by
      rw [value_zeroTwoFive, asFloat_zero1, asFloat_zeroTwo, sub_zero,
        abs_of_pos (by norm_num : (0 : ℚ) < (1 : ℚ) / 4),
        abs_of_pos
          (by norm_num : (0 : ℚ) < 1 / 4 - 7205759403792794 * (2 : ℚ) ^ (-55 : ℤ))]
      push_cast [List.length_cons, List.length_nil]
      norm_num)

theorem truncC_eval (mepc : ℚ) (hm : mepc ≤ 1) :
    truncCoeff 25 mepc ⟨⟨false, [5], -1⟩, ['0', '.', '5']⟩ = ['0', '.', '5'] := by
  rw [truncCoeff]
  show ((List.range 18).reverse).foldl (truncStep 25 mepc ⟨false, [5], -1⟩)
    ['0', '.', '5'] = ['0', '.', '5']
  rw [(by decide : (List.range 18).reverse = (List.range' 1 17).reverse ++ [0]),
    List.foldl_append]
  rw [truncFold_skip 25 mepc ⟨false, [5], -1⟩ (List.range' 1 17).reverse
    ['0', '.', '5'] (by
      intro k hk
      have hall : ∀ j, j < 18 → 1 ≤ j →
          ¬ (0 < ((['0', '.', '5'] : List Char).length : ℤ) -
            ((roundCompactN ⟨false, [5], -1⟩ j).length : ℤ)) := by decide
      rw [List.mem_reverse, List.mem_range'_1] at hk
      exact hall k (by omega) (by omega))]
  rw [List.foldl_cons, List.foldl_nil]
  exact truncStep_reject 25 mepc ⟨false, [5], -1⟩ ['0', '.', '5'] ['0'] 0
    (by decide) (by
      rw [value_zeroFive, asFloat_zero1, asFloat_zeroFive, sub_self, abs_zero, sub_zero,
        abs_of_pos (by norm_num : (0 : ℚ) < 1 / 2 - 0)]
      push_cast [List.length_cons, List.length_nil]
      intro hc
      norm_num at hc
      linarith)

theorem truncA_large :
    truncCoeff 1 (33 / 128) ⟨⟨false, [2, 5], -1⟩, ['2', '.', '5']⟩ = ['2'] := by
  rw [truncCoeff]
  show ((List.range 18).reverse).foldl (truncStep 1 (33 / 128) ⟨false, [2, 5], -1⟩)
    ['2', '.', '5'] = ['2']
  rw [(by decide : (List.range 18).reverse = (List.range' 2 16).reverse ++ [1, 0]),
    List.foldl_append]
  rw [truncFold_skip 1 (33 / 128) ⟨false, [2, 5], -1⟩ (List.range' 2 16).reverse
    ['2', '.', '5'] (by
      intro k hk
      have hall : ∀ j, j < 18 → 2 ≤ j →
          ¬ (0 < ((['2', '.', '5'] : List Char).length : ℤ) -
            ((roundCompactN ⟨false, [2, 5], -1⟩ j).length : ℤ)) := by decide
      rw [List.mem_reverse, List.mem_range'_1] at hk
      exact hall k (by omega) (by omega))]
  rw [List.foldl_cons,
    truncStep_accept 1 (33 / 128) ⟨false, [2, 5], -1⟩ ['2', '.', '5'] ['2'] 1
      (by decide) (by decide) (by
        rw [value_twoFive, asFloat_two, asFloat_twoFive, sub_self, abs_zero, sub_zero,
          abs_of_pos (by norm_num : (0 : ℚ) < 5 / 2 - 2)]
        push_cast [List.length_cons, List.length_nil]
        norm_num)]
  rw [List.foldl_cons, List.foldl_nil]
  exact truncStep_skip 1 (33 / 128) ⟨false, [2, 5], -1⟩ ['2'] 0 (by decide)

theorem truncB_large :
    truncCoeff (5 / 2) (33 / 128) ⟨⟨false, [2, 5], -2⟩, ['0', '.', '2', '5']⟩ = ['0'] := by
  rw [truncCoeff]
  show ((List.range 18).reverse).foldl (truncStep (5 / 2) (33 / 128) ⟨false, [2, 5], -2⟩)
    ['0', '.', '2', '5'] = ['0']
  rw [(by decide : (List.range 18).reverse = (List.range' 2 16).reverse ++ [1, 0]),
    List.foldl_append]
  rw [truncFold_skip (5 / 2) (33 / 128) ⟨false, [2, 5], -2⟩ (List.range' 2 16).reverse
    ['0', '.', '2', '5'] (by
      intro k hk
      have hall : ∀ j, j < 18 → 2 ≤ j →
          ¬ (0 < ((['0', '.', '2', '5'] : List Char).length : ℤ) -
            ((roundCompactN ⟨false, [2, 5], -2⟩ j).length : ℤ)) := by decide
      rw [List.mem_reverse, List.mem_range'_1] at hk
      exact hall k (by omega) (by omega))]
  rw [List.foldl_cons,
    truncStep_accept (5 / 2) (33 / 128) ⟨false, [2, 5], -2⟩ ['0', '.', '2', '5']
      ['0', '.', '2'] 1 (by decide) (by decide) (by
        rw [value_zeroTwoFive, asFloat_zeroTwo, asFloat_zeroTwoFive, sub_self, abs_zero,
          sub_zero, abs_of_pos
            (by norm_num : (0 : ℚ) < 1 / 4 - 7205759403792794 * (2 : ℚ) ^ (-55 : ℤ))]
        push_cast [List.length_cons, List.length_nil]
        norm_num)]
  rw [List.foldl_cons, List.foldl_nil]
  exact truncStep_accept (5 / 2) (33 / 128) ⟨false, [2, 5], -2⟩ ['0', '.', '2'] ['0'] 0
    (by decide) (by decide) (by
      rw [value_zeroTwoFive, asFloat_zero1, asFloat_zeroTwo, sub_zero,
        abs_of_pos (by norm_num : (0 : ℚ) < (1 : ℚ) / 4),
        abs_of_pos
          (by norm_num : (0 : ℚ) < 1 / 4 - 7205759403792794 * (2 : ℚ) ^ (-55 : ℤ))]
      push_cast [List.length_cons, List.length_nil]
      norm_num)

/-- Counterexample for C3 as stated: for the fixed term
`(a, b, c) = (2.5, 0.25, 0.5)` with `t_max = 10`, `alpha = 0`, the planetary
`simplify` DROPS the term at budget `27/128` but KEEPS it at the larger
budget `33/128`: the larger budget truncates "2.5" to "2" and "0.25" to
"0", which shrinks `drop_chars_saved` from 12 to 8 and lifts the drop
ratio `2.5/8` above the budget. -/
theorem claim_C3_counterexample :
    (27 : ℚ) / 128 < 33 / 128 ∧
    vsopSimplify ⟨⟨false, [2, 5], -1⟩, ['2', '.', '5']⟩
      ⟨⟨false, [2, 5], -2⟩, ['0', '.', '2', '5']⟩
      ⟨⟨false, [5], -1⟩, ['0', '.', '5']⟩ 10 0 (27 / 128) =
      [ffZeroChars, ffZeroChars, ffZeroChars] ∧
    vsopSimplify ⟨⟨false, [2, 5], -1⟩, ['2', '.', '5']⟩
      ⟨⟨false, [2, 5], -2⟩, ['0', '.', '2', '5']⟩
      ⟨⟨false, [5], -1⟩, ['0', '.', '5']⟩ 10 0 (33 / 128) ≠
      [ffZeroChars, ffZeroChars, ffZeroChars] := by
  have hmult2 : |(⟨false, [2, 5], -1⟩ : DecRep).value| * (10 : ℚ) ^ (0 : ℕ) = 5 / 2 := by
    rw [value_twoFive, abs_of_pos (by norm_num : (0 : ℚ) < 5 / 2)]
    norm_num
  have hmult3 : |(⟨false, [2, 5], -1⟩ : DecRep).value| * (10 : ℚ) ^ (0 : ℕ) * 10 = 25 := by
    rw [value_twoFive, abs_of_pos (by norm_num : (0 : ℚ) < 5 / 2)]
    norm_num
  have hdropmul : (1 : ℚ) * |(⟨false, [2, 5], -1⟩ : DecRep).value| = 5 / 2 := by
    rw [value_twoFive, abs_of_pos (by norm_num : (0 : ℚ) < 5 / 2)]
    norm_num
  refine ⟨by norm_num, ?_, ?_⟩
  · simp only [vsopSimplify, vsopTruncStage, List.zipWith]
    rw [hmult3, hmult2, pow_zero, truncA_small, truncB_small,
      truncC_eval (27 / 128) (by norm_num), hdropmul]
    rw [if_pos (by
      push_cast [List.map, List.sum_cons, List.sum_nil, List.length_cons, List.length_nil]
      norm_num)]
  · simp only [vsopSimplify, vsopTruncStage, List.zipWith]
    rw [hmult3, hmult2, pow_zero, truncA_large, truncB_large,
      truncC_eval (33 / 128) (by norm_num), hdropmul]
    rw [if_neg (by
      push_cast [List.map, List.sum_cons, List.sum_nil, List.length_cons, List.length_nil]
      norm_num)]
    decide

/- ### truncate_series (src/mpp02_truncate.py lines 77-100 and
src/vsop87a_truncate.py lines 96-128) -/

/-- `np.array(coeffs).reshape(-1, n)`: split into consecutive chunks of `n`
(fuel-based so concrete instances compute). -/
def chunksAux {α : Type} (n : ℕ) : ℕ → List α → List (List α)
  | 0, _ => []
  | _, [] => []
  | fuel + 1, a :: t => (a :: t.take (n - 1)) :: chunksAux n fuel (t.drop (n - 1))

def chunks {α : Type} (n : ℕ) (l : List α) : List (List α) := chunksAux n l.length l

structure MppGroup where
  coord : ℕ
  alpha : ℕ
  coeffs : List CoeffIn

/-- The lunar series object: `W`, `PC`, `QC` are opaque secular payloads. -/
structure MppSeries where
  W : List ℚ
  PC : List ℚ
  QC : List ℚ
  groups : List MppGroup

structure MppGroupOut where
  coord : ℕ
  alpha : ℕ
  coeffs : List (List Char)

structure MppSeriesOut where
  W : List ℚ
  PC : List ℚ
  QC : List ℚ
  groups : List MppGroupOut

/-- Embedding of the lunar `truncate_series(obj_raw, size)`: each group's
coefficients are reshaped into 6-tuples, each tuple simplified, tuples
whose simplified amplitude parses to `0.0` are skipped, and groups left
with no surviving tuple are omitted; `W`, `PC`, `QC` are copied through. -/
def mppTruncateSeries (obj : MppSeries) (norms : ℕ → ℚ) (mepc : ℚ) :
    MppSeriesOut :=
  { W := obj.W
    PC := obj.PC
    QC := obj.QC
    groups := obj.groups.filterMap fun g =>
      let kept := (chunks 6 g.coeffs).filterMap fun ch =>
        let cNew := mppSimplify ch (norms g.coord) g.alpha mepc
        if asFloat (cNew.head?.getD []) = 0 then none else some cNew
      let coeffsTruncated := kept.join
      if coeffsTruncated = [] then none
      else some ⟨g.coord, g.alpha, coeffsTruncated⟩ }

structure VsopGroup where
  coord : ℕ
  alpha : ℕ
  coeffs : List CoeffIn

/-- The planetary series object: `bodies` is the ordered name → groups
association, `matrix` an opaque payload. -/
structure VsopSeries where
  matrix : List (List ℚ)
  bodies : List (String × List VsopGroup)

structure VsopGroupOut where
  coord : ℕ
  alpha : ℕ
  coeffs : List (List Char)
  deriving DecidableEq

structure VsopSeriesOut where
  matrix : List (List ℚ)
  bodies : List (String × List VsopGroupOut)

/-- Embedding of the planetary `truncate_series(obj_raw, size)`: the body
`EARTH` is skipped, each group's coefficients are reshaped into 3-tuples,
tuples whose simplified amplitude parses to `0.0` are skipped, groups (and
bodies) left empty are omitted; `matrix` is copied through.  `cfg` maps a
body name to its `(t_max, max_error_per_char)` pair of constants. -/
def vsopTruncateSeries (obj : VsopSeries) (cfg : String → ℚ × ℚ) :
    VsopSeriesOut :=
  { matrix := obj.matrix
    bodies := obj.bodies.filterMap fun bg =>
      if bg.1 = "EARTH" then none
      else
        let groupsT := bg.2.filterMap fun g =>
          let kept := (chunks 3 g.coeffs).filterMap fun ch =>
            let cNew := vsopSimplify (ch.getD 0 ⟨⟨false, [0], 0⟩, ['0']⟩)
              (ch.getD 1 ⟨⟨false, [0], 0⟩, ['0']⟩) (ch.getD 2 ⟨⟨false, [0], 0⟩, ['0']⟩)
              (cfg bg.1).1 g.alpha (cfg bg.1).2
            if asFloat (cNew.head?.getD []) = 0 then none else some cNew
          let coeffsTruncated := kept.join
          if coeffsTruncated = [] then none
          else some (⟨g.coord, g.alpha, coeffsTruncated⟩ : VsopGroupOut)
        if groupsT = [] then none else some (bg.1, groupsT) }

/-- C9: the global secular payloads pass through `truncate_series`
unmodified: `W`, `PC`, `QC` for the lunar model and `matrix` for the
planetary model are exactly the input's fields, for every input and
budget. -/
theorem claim_C9 :
    (∀ (obj : MppSeries) (norms : ℕ → ℚ) (mepc : ℚ),
      (mppTruncateSeries obj norms mepc).W = obj.W ∧
      (mppTruncateSeries obj norms mepc).PC = obj.PC ∧
      (mppTruncateSeries obj norms mepc).QC = obj.QC) ∧
    (∀ (obj : VsopSeries) (cfg : String → ℚ × ℚ),
      (vsopTruncateSeries obj cfg).matrix = obj.matrix) :=
  ⟨fun _ _ _ => ⟨rfl, rfl, rfl⟩, fun _ _ => rfl⟩

/-- C10: every group surviving in the output of `truncate_series` is
nonempty, and its coefficient list is the concatenation of simplified
tuples each of whose amplitude literal does NOT parse to `0.0` — tuples
with zero simplified amplitude are discarded wholesale, and emptied groups
are omitted. -/
theorem claim_C10 :
    (∀ (obj : MppSeries) (norms : ℕ → ℚ) (mepc : ℚ),
      ∀ g ∈ (mppTruncateSeries obj norms mepc).groups,
        g.coeffs ≠ [] ∧
        ∃ kept : List (List (List Char)), g.coeffs = kept.join ∧
          ∀ cn ∈ kept, asFloat (cn.head?.getD []) ≠ 0) ∧
    (∀ (obj : VsopSeries) (cfg : String → ℚ × ℚ),
      ∀ bg ∈ (vsopTruncateSeries obj cfg).bodies, ∀ g ∈ bg.2,
        g.coeffs ≠ [] ∧
        ∃ kept : List (List (List Char)), g.coeffs = kept.join ∧
          ∀ cn ∈ kept, asFloat (cn.head?.getD []) ≠ 0) := by
  constructor
  · intro obj norms mepc g hg
    rw [mppTruncateSeries] at hg
    simp only [List.mem_filterMap] at hg
    obtain ⟨g0, hg0, hf⟩ := hg
    by_cases hempty : (((chunks 6 g0.coeffs).filterMap fun ch =>
        if asFloat ((mppSimplify ch (norms g0.coord) g0.alpha mepc).head?.getD []) = 0
        then none else some (mppSimplify ch (norms g0.coord) g0.alpha mepc)).join) = []
    · rw [if_pos hempty] at hf
      exact absurd hf (Option.noConfusion)
    · rw [if_neg hempty] at hf
      have hgeq := Option.some.inj hf
      refine ⟨?_, (chunks 6 g0.coeffs).filterMap fun ch =>
        if asFloat ((mppSimplify ch (norms g0.coord) g0.alpha mepc).head?.getD []) = 0
        then none else some (mppSimplify ch (norms g0.coord) g0.alpha mepc), ?_, ?_⟩
      · rw [← hgeq]
        exact hempty
      · rw [← hgeq]
      · intro cn hcn
        rw [List.mem_filterMap] at hcn
        obtain ⟨ch, _, hch⟩ := hcn
        by_cases hz : asFloat ((mppSimplify ch (norms g0.coord) g0.alpha mepc).head?.getD []) = 0
        · rw [if_pos hz] at hch
          exact absurd hch (Option.noConfusion)
        · rw [if_neg hz] at hch
          rw [← Option.some.inj hch]
          exact hz
  · intro obj cfg bg hbg g hg
    rw [vsopTruncateSeries] at hbg
    simp only [List.mem_filterMap] at hbg
    obtain ⟨bg0, hbg0, hfb⟩ := hbg
    by_cases hearth : bg0.1 = "EARTH"
    · rw [if_pos hearth] at hfb
      exact absurd hfb (Option.noConfusion)
    · rw [if_neg hearth] at hfb
      by_cases hge : (bg0.2.filterMap fun g1 =>
          let kept := (chunks 3 g1.coeffs).filterMap fun ch =>
            let cNew := vsopSimplify (ch.getD 0 ⟨⟨false, [0], 0⟩, ['0']⟩)
              (ch.getD 1 ⟨⟨false, [0], 0⟩, ['0']⟩) (ch.getD 2 ⟨⟨false, [0], 0⟩, ['0']⟩)
              (cfg bg0.1).1 g1.alpha (cfg bg0.1).2
            if asFloat (cNew.head?.getD []) = 0 then none else some cNew
          let coeffsTruncated := kept.join
          if coeffsTruncated = [] then none
          else some (⟨g1.coord, g1.alpha, coeffsTruncated⟩ : VsopGroupOut)) = []
      · rw [if_pos hge] at hfb
        exact absurd hfb (Option.noConfusion)
      · rw [if_neg hge] at hfb
        rw [← Option.some.inj hfb] at hg
        simp only [List.mem_filterMap] at hg
        obtain ⟨g1, hg1, hf⟩ := hg
        by_cases hempty : (((chunks 3 g1.coeffs).filterMap fun ch =>
            if asFloat ((vsopSimplify (ch.getD 0 ⟨⟨false, [0], 0⟩, ['0']⟩)
                (ch.getD 1 ⟨⟨false, [0], 0⟩, ['0']⟩) (ch.getD 2 ⟨⟨false, [0], 0⟩, ['0']⟩)
                (cfg bg0.1).1 g1.alpha (cfg bg0.1).2).head?.getD []) = 0
            then none
            else some (vsopSimplify (ch.getD 0 ⟨⟨false, [0], 0⟩, ['0']⟩)
                (ch.getD 1 ⟨⟨false, [0], 0⟩, ['0']⟩) (ch.getD 2 ⟨⟨false, [0], 0⟩, ['0']⟩)
                (cfg bg0.1).1 g1.alpha (cfg bg0.1).2)).join) = []
        · rw [if_pos hempty] at hf
          exact absurd hf (Option.noConfusion)
        · rw [if_neg hempty] at hf
          have hgeq := Option.some.inj hf
          refine ⟨?_, (chunks 3 g1.coeffs).filterMap fun ch =>
            if asFloat ((vsopSimplify (ch.getD 0 ⟨⟨false, [0], 0⟩, ['0']⟩)
                (ch.getD 1 ⟨⟨false, [0], 0⟩, ['0']⟩) (ch.getD 2 ⟨⟨false, [0], 0⟩, ['0']⟩)
                (cfg bg0.1).1 g1.alpha (cfg bg0.1).2).head?.getD []) = 0
            then none
            else some (vsopSimplify (ch.getD 0 ⟨⟨false, [0], 0⟩, ['0']⟩)
                (ch.getD 1 ⟨⟨false, [0], 0⟩, ['0']⟩) (ch.getD 2 ⟨⟨false, [0], 0⟩, ['0']⟩)
                (cfg bg0.1).1 g1.alpha (cfg bg0.1).2), ?_, ?_⟩
          · rw [← hgeq]
            exact hempty
          · rw [← hgeq]
          · intro cn hcn
            rw [List.mem_filterMap] at hcn
            obtain ⟨ch, _, hch⟩ := hcn
            by_cases hz : asFloat ((vsopSimplify (ch.getD 0 ⟨⟨false, [0], 0⟩, ['0']⟩)
                (ch.getD 1 ⟨⟨false, [0], 0⟩, ['0']⟩) (ch.getD 2 ⟨⟨false, [0], 0⟩, ['0']⟩)
                (cfg bg0.1).1 g1.alpha (cfg bg0.1).2).head?.getD []) = 0
            · rw [if_pos hz] at hch
              exact absurd hch (Option.noConfusion)
            · rw [if_neg hz] at hch
              rw [← Option.some.inj hch]
              exact hz

theorem value_five : (⟨false, [5], 0⟩ : DecRep).value = 5 := by
  rw [DecRep.value]
  norm_num [digitsToNat]

theorem truncCoeff_five (mult mepc : ℚ) :
    truncCoeff mult mepc ⟨⟨false, [5], 0⟩, ['5']⟩ = ['5'] := by
  rw [truncCoeff]
  apply truncFold_skip
  intro k hk
  have hall : ∀ j, j < 18 → ¬ (0 < ((['5'] : List Char).length : ℤ) -
      ((roundCompactN ⟨false, [5], 0⟩ j).length : ℤ)) := by decide
  rw [List.mem_reverse, List.mem_range] at hk
  exact hall k hk

theorem vsopSimplify_five :
    vsopSimplify ⟨⟨false, [5], 0⟩, ['5']⟩ ⟨⟨false, [5], 0⟩, ['5']⟩
      ⟨⟨false, [5], 0⟩, ['5']⟩ 10 0 (1 / 4) = [['5'], ['5'], ['5']] := by
  have habs : |(⟨false, [5], 0⟩ : DecRep).value| = 5 := by
    rw [value_five]
    exact abs_of_pos (by norm_num)
  simp only [vsopSimplify, vsopTruncStage, List.zipWith, truncCoeff_five]
  rw [if_neg (by
    rw [habs]
    push_cast [List.map, List.sum_cons, List.sum_nil, List.length_cons, List.length_nil]
    norm_num)]

theorem vsopRun_five :
    (vsopTruncateSeries ⟨[], [("X", [⟨0, 0, [⟨⟨false, [5], 0⟩, ['5']⟩,
        ⟨⟨false, [5], 0⟩, ['5']⟩, ⟨⟨false, [5], 0⟩, ['5']⟩]⟩])]⟩
      (fun _ => (10, 1 / 4))).bodies =
      [("X", [⟨0, 0, [['5'], ['5'], ['5']]⟩])] := by
  have hguard : asFloat (((vsopSimplify ⟨⟨false, [5], 0⟩, ['5']⟩ ⟨⟨false, [5], 0⟩, ['5']⟩
      ⟨⟨false, [5], 0⟩, ['5']⟩ 10 0 (1 / 4)).head?).getD []) = 5 := by
    rw [vsopSimplify_five]
    rw [show (([['5'], ['5'], ['5']] : List (List Char)).head?).getD [] = ['5'] from rfl]
    exact asFloat_five
  simp only [vsopTruncateSeries, List.filterMap_cons, List.filterMap_nil]
  rw [if_neg (by decide : ¬ ("X" : String) = "EARTH")]
  rw [show chunks 3 [(⟨⟨false, [5], 0⟩, ['5']⟩ : CoeffIn), ⟨⟨false, [5], 0⟩, ['5']⟩,
    ⟨⟨false, [5], 0⟩, ['5']⟩] = [[⟨⟨false, [5], 0⟩, ['5']⟩, ⟨⟨false, [5], 0⟩, ['5']⟩,
    ⟨⟨false, [5], 0⟩, ['5']⟩]] from rfl]
  simp only [List.filterMap_cons, List.filterMap_nil, List.getD_cons_zero,
    List.getD_cons_succ]
  rw [hguard]
  rw [if_neg (by norm_num : ¬ (5 : ℚ) = 0)]
  rw [vsopSimplify_five]
  dsimp only
  rw [show ([[['5'], ['5'], ['5']]] : List (List (List Char))).join =
    [['5'], ['5'], ['5']] from rfl]
  rw [if_neg (by decide : ¬ ([['5'], ['5'], ['5']] : List (List Char)) = [])]
  rfl

/-- Witness for C10: a one-term planetary series whose amplitude 5 survives;
the surviving group is nonempty and every kept tuple has nonzero amplitude. -/
theorem claim_C10_witness :
    (([['5'], ['5'], ['5']] : List (List Char)) ≠ [] ∧
      ∃ kept : List (List (List Char)),
        ([['5'], ['5'], ['5']] : List (List Char)) = kept.join ∧
        ∀ cn ∈ kept, asFloat (cn.head?.getD []) ≠ 0) := by
  have h := claim_C10.2 ⟨[], [("X", [⟨0, 0, [⟨⟨false, [5], 0⟩, ['5']⟩,
      ⟨⟨false, [5], 0⟩, ['5']⟩, ⟨⟨false, [5], 0⟩, ['5']⟩]⟩])]⟩
    (fun _ => (10, 1 / 4))
    ("X", [⟨0, 0, [['5'], ['5'], ['5']]⟩])
    (by rw [vsopRun_five]; exact List.mem_singleton.mpr rfl)
    ⟨0, 0, [['5'], ['5'], ['5']]⟩ (List.mem_singleton.mpr rfl)
  exact h
